import Mathlib

/-!
Verification of the guest-image ingestion core of touchHLE: the bundle
mount (`src/fs/bundle.rs`), the POSIX I/O shim (`src/libc/posix_io.rs`)
and the Mach-O loader (`src/mach_o.rs`).

Strings are modelled as `List Char` (`Str`), so that the byte-level
prefix/suffix/splitting operations of the Rust code are fully
executable.  Panics (`assert!`, `unwrap`, slice-bound failures) are
modelled as `Except` errors; distinct error constructors are used where
a claim distinguishes failure causes.
-/

set_option maxHeartbeats 1000000

/-- Guest strings, modelled as lists of characters. -/
abbrev Str := List Char

/-- Conversion from a Lean string literal to a `Str`. -/
def str (s : String) : Str := s.data

/-- The apostrophe character, built numerically. -/
def apos : Char := Char.ofNat 39

/-- Rust `str::split('/')`: splits at every slash, keeping empty pieces. -/
def splitSlash : Str → List Str
  | [] => [[]]
  | c :: rest =>
    if c = '/' then [] :: splitSlash rest
    else
      match splitSlash rest with
      | [] => [[c]]
      | p :: ps => (c :: p) :: ps

/-- Rust `str::rsplit_once('/')` (modelled from the spec for
`GuestPath::parent_and_file_name`, whose source is outside `src/`):
splits at the last slash, or `none` if the string has no slash. -/
def rsplitSlash : Str → Option (Str × Str)
  | [] => none
  | c :: rest =>
    match rsplitSlash rest with
    | some (p, f) => some (c :: p, f)
    | none => if c = '/' then some ([], rest) else none

/-- Rust `str::split_once('/')`: splits at the first slash. -/
def splitOnceSlash : Str → Option (Str × Str)
  | [] => none
  | c :: rest =>
    if c = '/' then some ([], rest)
    else (splitOnceSlash rest).map (fun pr => (c :: pr.1, pr.2))

/-- Rust `str::strip_prefix`: removes `pre` from the front of `s` when it
is a textual prefix. -/
def stripPre : Str → Str → Option Str
  | [], s => some s
  | _ :: _, [] => none
  | p :: ps, c :: cs => if p = c then stripPre ps cs else none

/-- Decidable textual-prefix test on lists. -/
def isLeadB [DecidableEq α] : List α → List α → Bool
  | [], _ => true
  | _ :: _, [] => false
  | a :: as, b :: bs => a = b && isLeadB as bs

/-- Rust `str::strip_suffix`. -/
def stripSuffix (suf s : Str) : Option Str :=
  if isLeadB suf.reverse s.reverse then some ((s.reverse.drop suf.length).reverse)
  else none

/-- The nonempty path components of a guest path: split at slashes,
dropping empty pieces (matching the `part.is_empty()` skip in
`find_or_make_directory`). -/
def comps (r : Str) : List Str :=
  (splitSlash r).filter (fun c => !c.isEmpty)

/-- The nonempty textual prefixes of a list (shortest first). -/
def nePres : List α → List (List α)
  | [] => []
  | a :: as => [a] :: (nePres as).map (a :: ·)

/-! ## The guest filesystem tree (`FsNode`, `FsNodeBuilder`) -/

/-- Guest filesystem node (modelled from the spec: the `FsNode` type
lives outside `src/`; a directory maps component names to children, a
file records which archive entry backs it). The children mapping is an
association list with unique keys. -/
inductive FsNode where
  | dir (children : List (Str × FsNode))
  | file (index : Nat)

instance : Inhabited FsNode := ⟨.dir []⟩

/-- Lookup of a child by name in a directory's children mapping. -/
def lookupChild : List (Str × FsNode) → Str → Option FsNode
  | [], _ => none
  | (k, v) :: rest, name => if k = name then some v else lookupChild rest name

/-- Map-style insertion into a children mapping: replaces the binding if
the name exists, otherwise appends it. -/
def insertChild : List (Str × FsNode) → Str → FsNode → List (Str × FsNode)
  | [], name, v => [(name, v)]
  | (k, w) :: rest, name, v =>
    if k = name then (name, v) :: rest else (k, w) :: insertChild rest name v

/-- Failure causes of `FsNodeBuilder` operations: the `assert_ne!(part,
"..")` assertion, the `parent_and_file_name().unwrap()` panic, and the
`panic!("expected directory, ...")` programmer-error panic. -/
inductive BuildErr where
  | dotdot
  | noSplit
  | expectedDir
deriving DecidableEq

/-- The walk of `FsNodeBuilder::find_or_make_directory`: follow the
slash-separated parts of a path from `t`, skipping empty parts,
rejecting `..`, creating missing directories, and apply `k` to the node
reached (reinserting the updated child at every level). -/
def updateAtPath : FsNode → List Str → (FsNode → Except BuildErr FsNode) →
    Except BuildErr FsNode
  | t, [], k => k t
  | t, p :: rest, k =>
    if p.isEmpty then updateAtPath t rest k
    else if p = str ".." then .error .dotdot
    else
      match t with
      | .file _ => .error .expectedDir
      | .dir ch =>
        match updateAtPath ((lookupChild ch p).getD (FsNode.dir [])) rest k with
        | .ok c => .ok (.dir (insertChild ch p c))
        | .error e => .error e

/-- `FsNodeBuilder::add_directory`: walk the path, creating directories. -/
def addDirectory (t : FsNode) (path : Str) : Except BuildErr FsNode :=
  updateAtPath t (splitSlash path) .ok

/-- `FsNodeBuilder::add_file`: split the path into parent and file name,
reject a `..` file name, walk to the parent directory and insert the
node under the file name (replacing any existing child of that name). -/
def addFileTop (t : FsNode) (path : Str) (node : FsNode) : Except BuildErr FsNode :=
  match rsplitSlash path with
  | none => .error .noSplit
  | some (parent, fileName) =>
    if fileName = str ".." then .error .dotdot
    else
      updateAtPath t (splitSlash parent) (fun d =>
        match d with
        | .dir ch => .ok (.dir (insertChild ch fileName node))
        | .file _ => .error .expectedDir)

/-- One entry of a ZIP archive as exposed by the `zip` crate: its full
name and whether it is a directory entry. -/
structure ZipEntry where
  name : Str
  isDir : Bool
deriving DecidableEq

/-- The entry loop of `BundleData::into_fs_node` for the `Zip` case:
iterate the entries in order with their ordinal `i`; for an entry whose
name has `bundlePath` as a textual prefix, add the remainder as a
directory or as a file backed by entry `i`. -/
def buildNodes (bundlePath : Str) : FsNode → Nat → List ZipEntry →
    Except BuildErr FsNode
  | t, _, [] => .ok t
  | t, i, e :: rest =>
    match stripPre bundlePath e.name with
    | none => buildNodes bundlePath t (i + 1) rest
    | some path =>
      if e.isDir then
        match addDirectory t path with
        | .ok t' => buildNodes bundlePath t' (i + 1) rest
        | .error err => .error err
      else
        match addFileTop t path (.file i) with
        | .ok t' => buildNodes bundlePath t' (i + 1) rest
        | .error err => .error err

/-- `BundleData::into_fs_node` for a ZIP bundle: build the tree from an
empty root directory. -/
def intoFsNode (entries : List ZipEntry) (bundlePath : Str) :
    Except BuildErr FsNode :=
  buildNodes bundlePath (.dir []) 0 entries

/-- `BundleData::find_bundle_path_in_archive`: the first entry of the
form `Payload/<name>.app/...` determines the bundle path
`Payload/<name>.app`. -/
def findBundlePath : List ZipEntry → Option Str
  | [] => none
  | e :: rest =>
    match (stripPre (str "Payload/") e.name).bind (fun p =>
        (splitOnceSlash p).bind (fun pr => stripSuffix (str ".app") pr.1)) with
    | some name => some (str "Payload/" ++ name ++ str ".app")
    | none => findBundlePath rest

mutual
/-- Traversal of an `FsNode` tree: every node's component path together
with a flag telling whether the node is a directory. -/
def nodePaths : FsNode → List (List Str × Bool)
  | .file _ => [([], false)]
  | .dir ch => ([], true) :: childPaths ch
/-- Traversal of a children mapping (helper of `nodePaths`). -/
def childPaths : List (Str × FsNode) → List (List Str × Bool)
  | [] => []
  | (name, c) :: rest =>
    (nodePaths c).map (fun pb => (name :: pb.1, pb.2)) ++ childPaths rest
end

mutual
/-- Well-formedness of a tree: every directory's children mapping has
pairwise-distinct names. -/
def wfNode : FsNode → Bool
  | .file _ => true
  | .dir ch => ((ch.map Prod.fst).Nodup : Bool) && wfChildren ch
/-- Well-formedness of a children mapping (helper of `wfNode`). -/
def wfChildren : List (Str × FsNode) → Bool
  | [] => true
  | (_, c) :: rest => wfNode c && wfChildren rest
end

/-- The node of a tree at an exact component path, if any. -/
def nodeAt : FsNode → List Str → Option FsNode
  | t, [] => some t
  | .file _, _ :: _ => none
  | .dir ch, c :: rest =>
    match lookupChild ch c with
    | none => none
    | some child => nodeAt child rest

/-- Whether a node is a directory. -/
def FsNode.isDirB : FsNode → Bool
  | .dir _ => true
  | .file _ => false

/-- The kind (directory/file) of the node at a path, if any. -/
def kindAt (t : FsNode) (p : List Str) : Option Bool :=
  (nodeAt t p).map FsNode.isDirB

/-! ## Claim C1: statement of the claim and of its amendment -/

/-- Whether some archive entry sits at component path `p` with kind `b`
underneath the `bundlePath` directory (the entry's name continues
`bundlePath` with a slash). -/
def underB (entries : List ZipEntry) (bundlePath : Str) (p : List Str)
    (b : Bool) : Bool :=
  entries.any (fun e =>
    e.isDir == b &&
    match stripPre (bundlePath ++ ['/']) e.name with
    | some r => comps r == p
    | none => false)

/-- Claim C1 as stated: for a bundle path found as `open_ipa` finds it,
a successful `into_fs_node` tree enumerates exactly the archive entries
underneath the bundle directory, at their relative component paths, and
no `..` component survives. -/
def C1Claim : Prop :=
  ∀ entries bundlePath t,
    findBundlePath entries = some bundlePath →
    intoFsNode entries bundlePath = .ok t →
    (∀ p b, p ≠ [] → (((p, b) ∈ nodePaths t) ↔ underB entries bundlePath p b = true)) ∧
    (∀ p b, (p, b) ∈ nodePaths t → str ".." ∉ p)

/-- The relative component path and kind of an entry whose name starts
with the bundle path. -/
def relPathOf (bundlePath : Str) (e : ZipEntry) : Option (List Str × Bool) :=
  (stripPre bundlePath e.name).map (fun r => (comps r, e.isDir))

/-- Per-entry sanity for the amended claim C1: the relative path has no
`..` component, and a file entry's remainder has a slash and a nonempty
final component. -/
def entryOk (bundlePath : Str) (e : ZipEntry) : Bool :=
  match stripPre bundlePath e.name with
  | none => true
  | some r =>
    (comps r).all (fun c => !(c == str "..")) &&
    (e.isDir ||
      match rsplitSlash r with
      | some (_, fileName) => !fileName.isEmpty
      | none => false)

/-- Conflict-freeness for the amended claim C1: no entry's relative
component path strictly extends a file entry's path, and no relative
path is shared between a file entry and a directory entry. -/
def noConflict (entries : List ZipEntry) (bundlePath : Str) : Bool :=
  entries.all (fun e =>
    match relPathOf bundlePath e with
    | some (p, false) =>
      entries.all (fun e2 =>
        match relPathOf bundlePath e2 with
        | some (q, b2) =>
          !(isLeadB p q && !(p == q)) && (!(p == q) || !b2)
        | none => true)
    | _ => true)

/-- The hypotheses of the amended claim C1. -/
def hypOk (entries : List ZipEntry) (bundlePath : Str) : Bool :=
  entries.all (entryOk bundlePath) && noConflict entries bundlePath

/-- The traversal entries contributed by one archive entry: its relative
component path with its kind, together with its synthesized ancestor
directories. -/
def expectedOf (bundlePath : Str) (e : ZipEntry) : List (List Str × Bool) :=
  match stripPre bundlePath e.name with
  | none => []
  | some r =>
    if e.isDir then (nePres (comps r)).map (fun q => (q, true))
    else
      match rsplitSlash r with
      | some (parent, fileName) =>
        (nePres (comps parent)).map (fun q => (q, true)) ++
          [(comps parent ++ [fileName], false)]
      | none => []

/-- The expected traversal of the whole archive. -/
def expectedSet (entries : List ZipEntry) (bundlePath : Str) :
    List (List Str × Bool) :=
  entries.flatMap (expectedOf bundlePath)

/-! ## POSIX I/O shim (`src/libc/posix_io.rs`) -/

/-- `O_RDONLY` flag value. -/
def O_RDONLY : Nat := 0x0
/-- `O_WRONLY` flag value. -/
def O_WRONLY : Nat := 0x1
/-- `O_RDWR` flag value. -/
def O_RDWR : Nat := 0x2
/-- `O_ACCMODE` mask (`O_RDWR | O_WRONLY | O_RDONLY`). -/
def O_ACCMODE : Nat := O_RDWR ||| O_WRONLY ||| O_RDONLY
/-- `O_NONBLOCK` flag value. -/
def O_NONBLOCK : Nat := 0x4
/-- `O_APPEND` flag value. -/
def O_APPEND : Nat := 0x8
/-- `O_NOFOLLOW` flag value. -/
def O_NOFOLLOW : Nat := 0x100
/-- `O_CREAT` flag value. -/
def O_CREAT : Nat := 0x200
/-- `O_TRUNC` flag value. -/
def O_TRUNC : Nat := 0x400
/-- `O_EXCL` flag value. -/
def O_EXCL : Nat := 0x800

/-- The 32-bit complement of the known-flag mask: `!(O_ACCMODE |
O_NONBLOCK | O_APPEND | O_NOFOLLOW | O_CREAT | O_TRUNC | O_EXCL)` as an
`i32` bit pattern. -/
def unknownFlagsMask : Nat := 2 ^ 32 - 1 - (O_ACCMODE ||| O_NONBLOCK ||| O_APPEND ||| O_NOFOLLOW ||| O_CREAT ||| O_TRUNC ||| O_EXCL)

/-- Guest filesystem open options (modelled from the spec: the
`GuestOpenOptions` fluent flags `read/write/append/create/truncate` of
the filesystem collaborator, whose source is outside `src/`). -/
structure GuestOpenOptions where
  read : Bool := false
  write : Bool := false
  append : Bool := false
  create : Bool := false
  truncate : Bool := false
deriving DecidableEq

/-- The flag-checking and option-building prefix of `open`: the three
`assert!`s (unknown flags, `O_NOFOLLOW`, `O_EXCL`), the `match` on the
access mode (whose `_` arm is `panic!()`), then the `O_APPEND`,
`O_CREAT` and `O_TRUNC` option updates. `flags` is the `i32` argument's
bit pattern. -/
def optionsForFlags (flags : Nat) : Except Unit GuestOpenOptions :=
  if flags &&& unknownFlagsMask ≠ 0 then .error ()
  else if flags &&& O_NOFOLLOW ≠ 0 then .error ()
  else if flags &&& O_EXCL ≠ 0 then .error ()
  else
    (if flags &&& O_ACCMODE = O_RDONLY then .ok { read := true }
     else if flags &&& O_ACCMODE = O_WRONLY then .ok { write := true }
     else if flags &&& O_ACCMODE = O_RDWR then .ok { read := true, write := true }
     else (.error () : Except Unit GuestOpenOptions)).map (fun o =>
      let o := if flags &&& O_APPEND ≠ 0 then { o with append := true } else o
      let o := if flags &&& O_CREAT ≠ 0 then { o with create := true } else o
      if flags &&& O_TRUNC ≠ 0 then { o with truncate := true } else o)

/-- The linear free-slot scan of `open`
(`files.iter().position(|f| f.is_none())`). -/
def firstNoneIdx : List (Option Nat) → Option Nat
  | [] => none
  | none :: _ => some 0
  | some _ :: rest => (firstNoneIdx rest).map (· + 1)

/-- `file_idx_to_fd`: `i32::try_from(idx).unwrap().checked_add(3).unwrap()`. -/
def file_idx_to_fd (idx : Nat) : Except Unit Int :=
  if idx ≤ 2 ^ 31 - 1 ∧ idx + 3 ≤ 2 ^ 31 - 1 then .ok ((idx : Int) + 3)
  else .error ()

/-- `fd_to_file_idx`: `fd.checked_sub(3).unwrap() as usize` (a negative
difference wraps to a huge 64-bit index; the subtraction itself only
overflows near `i32::MIN`). -/
def fd_to_file_idx (fd : Int) : Except Unit Nat :=
  if fd - 3 < -(2 ^ 31) then .error ()
  else .ok ((fd - 3) % (2 ^ 64)).toNat

/-- The `open` function over the FD table: check/translate the flags,
ask the filesystem (`fsOpen` stands for
`env.fs.open_with_options(path, options)`), then on success store the
host object in the first empty slot (or append) and return
`slot_index + 3`; on filesystem failure return `-1` with the table
unchanged. -/
def openCall (st : List (Option Nat)) (flags : Nat)
    (fsOpen : GuestOpenOptions → Option Nat) :
    Except Unit (List (Option Nat) × Int) :=
  match optionsForFlags flags with
  | .error e => .error e
  | .ok opts =>
    match fsOpen opts with
    | some fileObj =>
      match firstNoneIdx st with
      | some freeIdx =>
        match file_idx_to_fd freeIdx with
        | .ok fd => .ok (st.set freeIdx (some fileObj), fd)
        | .error e => .error e
      | none =>
        match file_idx_to_fd st.length with
        | .ok fd => .ok (st ++ [some fileObj], fd)
        | .error e => .error e
    | none => .ok (st, -1)

/-- The effect of `close` on the FD table:
`files[fd_to_file_idx(fd)].take().unwrap()` (an out-of-range index or an
already-empty slot panics), leaving the slot empty. -/
def closeSlot (st : List (Option Nat)) (fd : Int) :
    Except Unit (List (Option Nat)) :=
  match fd_to_file_idx fd with
  | .error e => .error e
  | .ok idx =>
    match st[idx]? with
    | some (some _) => .ok (st.set idx none)
    | _ => .error ()

/-- Claim C8 as stated: whenever the flags avoid unknown bits,
`O_NOFOLLOW` and `O_EXCL`, `open` is not fatal: it builds options from
the access mode and the `O_APPEND`/`O_CREAT`/`O_TRUNC` bits and returns
`-1` with the table unchanged when the filesystem open fails. -/
def C8Claim : Prop :=
  ∀ flags : Nat, flags < 2 ^ 32 →
    flags &&& unknownFlagsMask = 0 →
    flags &&& O_NOFOLLOW = 0 →
    flags &&& O_EXCL = 0 →
    ∃ opts, optionsForFlags flags = .ok opts ∧
      opts.read = ((flags &&& O_ACCMODE == O_RDONLY) || (flags &&& O_ACCMODE == O_RDWR)) ∧
      opts.write = ((flags &&& O_ACCMODE == O_WRONLY) || (flags &&& O_ACCMODE == O_RDWR)) ∧
      opts.append = (flags &&& O_APPEND != 0) ∧
      opts.create = (flags &&& O_CREAT != 0) ∧
      opts.truncate = (flags &&& O_TRUNC != 0) ∧
      (∀ st fsOpen, fsOpen opts = none → openCall st flags fsOpen = .ok (st, -1))

/-! ## Mach-O loader (`src/mach_o.rs`) -/

/-- `mach_object::CPU_TYPE_ARM`. -/
def CPU_TYPE_ARM : Nat := 12

/-- The symbol-table location recorded from `LC_SYMTAB`. -/
structure SymTabInfo where
  symoff : Nat
  nsyms : Nat
  stroff : Nat
  strsize : Nat
deriving DecidableEq

/-- A parsed symbol-table entry, as classified by the `mach_object`
crate (`Symbol::Debug` covers all stab entries). -/
inductive MachSymbol where
  | debug
  | defined (name : Option Str) (entry : Nat)
  | undefined (name : Option Str)
  | other
deriving DecidableEq

/-- The byte-level symbol parsing done by the `mach_object` crate
(`SymbolIter`), abstracted: the list of all symbols of a symbol table,
and the single symbol parsed at `symoff + idx * 12`. -/
structure LoaderOracle where
  parseSymbolsAll : SymTabInfo → List MachSymbol
  parseSymbolAt : SymTabInfo → Nat → Option MachSymbol

/-- `get_sym_by_idx`: indices at or past `nsyms` yield no symbol;
otherwise one symbol is parsed at `symoff + idx * 12`. -/
def get_sym_by_idx (oracle : LoaderOracle) (idx : Nat) (info : SymTabInfo) :
    Option MachSymbol :=
  if info.nsyms ≤ idx then none else oracle.parseSymbolAt info idx

/-- A section descriptor nested in a segment load command (the fields
the loader reads). -/
structure SectionDesc where
  sectname : Str
  addr : Nat
  size : Nat
  reserved1 : Nat
deriving DecidableEq

/-- A Mach-O load command, as parsed by the `mach_object` crate (only
the shapes the loader matches on). -/
inductive MachLoadCommand where
  | segment (segname : Str) (vmaddr vmsize fileoff filesize : Nat)
      (sections : List SectionDesc)
  | symTab (symoff nsyms stroff strsize : Nat)
  | dySymTab (indirectsymoff nindirectsyms extreloff nextrel : Nat)
  | encryptionInfo (cryptId : Nat)
  | loadDyLib (name : Str)
  | dyldInfo
  | otherCommand

/-- The Mach-O header fields the loader validates. -/
structure MachHeader where
  cputype : Nat
  isBigend : Bool
  is64bit : Bool
deriving DecidableEq

/-- The result of `OFile::parse` (a `none` input stands for a parse
failure). -/
inductive OFileRec where
  | machFile (header : MachHeader) (commands : List MachLoadCommand)
  | fatFile
  | arFile
  | symDef

/-- How `load_from_bytes` fails: an `Err` return carrying a static
message, or a panic (`assert!`, `unwrap`, `unimplemented!`, slice out of
bounds). -/
inductive LoadFailure where
  | err (msg : Str)
  | fatal
deriving DecidableEq

/-- The encrypted-executable error message. -/
def msgEncrypted : Str :=
  str "The executable is encrypted. touchHLE can" ++ [apos] ++
    str "t run encrypted apps!"

/-- The running state of the load-command loop, including the
guest-memory call trace (`reserves` records `reserve(vmaddr, vmsize)`
calls, `writes` records the byte ranges copied with `bytes_at_mut`). -/
structure LoadState where
  allSections : List SectionDesc
  symTabInfo : Option SymTabInfo
  entryPoint : Option Nat
  dylibs : List Str
  indirectUndefSymbols : List (Option Str)
  extRelocs : List (Nat × Str)
  reserves : List (Nat × Nat)
  writes : List (Nat × List Nat)

/-- The initial load state. -/
def initLoadState : LoadState :=
  ⟨[], none, none, [], [], [], [], []⟩

/-- The symbol walk of the `SymTab` arm: skip `Debug` symbols, and for
every `Defined` symbol named `start` record its entry address (narrowed
to `u32`, panicking on truncation). -/
def updateEntryPoint : Option Nat → List MachSymbol → Except LoadFailure (Option Nat)
  | acc, [] => .ok acc
  | acc, s :: rest =>
    match s with
    | .defined (some n) v =>
      if n = str "start" then
        if v < 2 ^ 32 then updateEntryPoint (some v) rest else .error .fatal
      else updateEntryPoint acc rest
    | _ => updateEntryPoint acc rest

/-- Exactly `n` consecutive `k`-byte chunks of a list. -/
def chunksN : Nat → Nat → List Nat → List (List Nat)
  | 0, _, _ => []
  | n + 1, k, l => l.take k :: chunksN n k (l.drop k)

/-- Little-endian decoding of a 4-byte chunk (`u32::from_le_bytes`). -/
def le4 (c : List Nat) : Nat :=
  c.getD 0 0 + 256 * c.getD 1 0 + 65536 * c.getD 2 0 + 16777216 * c.getD 3 0

/-- Little-endian `u32` read at offset `off` of the file bytes. -/
def le4at (bytes : List Nat) (off : Nat) : Nat :=
  bytes.getD off 0 + 256 * bytes.getD (off + 1) 0 +
    65536 * bytes.getD (off + 2) 0 + 16777216 * bytes.getD (off + 3) 0

/-- The indirect-symbol loop of the `DySymTab` arm: for each 4-byte
chunk, unwrap the recorded symbol-table info (panicking when absent),
resolve the decoded index, and record the name exactly when the symbol
is `Undefined` with a name. -/
def resolveIndirects (oracle : LoaderOracle) (stinfo : Option SymTabInfo) :
    List (List Nat) → Except LoadFailure (List (Option Str))
  | [] => .ok []
  | c :: rest =>
    match stinfo with
    | none => .error .fatal
    | some info =>
      match resolveIndirects oracle stinfo rest with
      | .error e => .error e
      | .ok tl =>
        .ok ((match get_sym_by_idx oracle (le4 c) info with
              | some (.undefined (some n)) => some n
              | _ => none) :: tl)

/-- The external-relocation loop of the `DySymTab` arm: for each 8-byte
chunk, decode the address from the first four bytes and the symbol index
from the low 24 bits of the last four, resolve it, and append the pair
exactly when the symbol is `Undefined` with a name. -/
def resolveExtRels (oracle : LoaderOracle) (stinfo : Option SymTabInfo) :
    List (List Nat) → Except LoadFailure (List (Nat × Str))
  | [] => .ok []
  | c :: rest =>
    match stinfo with
    | none => .error .fatal
    | some info =>
      match resolveExtRels oracle stinfo rest with
      | .error e => .error e
      | .ok tl =>
        .ok (match get_sym_by_idx oracle (le4 (c.drop 4) &&& 0xffffff) info with
             | some (.undefined (some n)) => (le4 (c.take 4), n) :: tl
             | _ => tl)

/-- Processing of one load command by `load_from_bytes` (the body of the
`for MachCommand(command, _size) in commands` loop). -/
def processCommand (oracle : LoaderOracle) (nullPageSize : Nat)
    (bytes : List Nat) (st : LoadState) (cmd : MachLoadCommand) :
    Except LoadFailure LoadState :=
  match cmd with
  | .segment segname vmaddr vmsize fileoff filesize sections =>
    if vmaddr < 2 ^ 32 ∧ vmsize < 2 ^ 32 ∧ filesize < 2 ^ 32 then
      if segname = str "__LINKEDIT" then
        .ok { st with allSections := st.allSections ++ sections }
      else if segname = str "__PAGEZERO" then
        if vmaddr = 0 ∧ vmsize = nullPageSize ∧ filesize = 0 then
          .ok { st with allSections := st.allSections ++ sections }
        else .error .fatal
      else
        let st1 := { st with reserves := st.reserves ++ [(vmaddr, vmsize)] }
        if filesize = 0 then
          .ok { st1 with allSections := st1.allSections ++ sections }
        else if filesize ≤ vmsize then
          if fileoff + filesize ≤ bytes.length then
            .ok { st1 with
                  writes := st1.writes ++
                    [(vmaddr, (bytes.drop fileoff).take filesize)],
                  allSections := st1.allSections ++ sections }
          else .error .fatal
        else .error .fatal
    else .error .fatal
  | .symTab symoff nsyms stroff strsize =>
    let info : SymTabInfo := ⟨symoff, nsyms, stroff, strsize⟩
    match updateEntryPoint st.entryPoint (oracle.parseSymbolsAll info) with
    | .ok ep => .ok { st with symTabInfo := some info, entryPoint := ep }
    | .error e => .error e
  | .dySymTab indirectsymoff nindirectsyms extreloff nextrel =>
    if indirectsymoff + nindirectsyms * 4 ≤ bytes.length then
      match resolveIndirects oracle st.symTabInfo
          (chunksN nindirectsyms 4 ((bytes.drop indirectsymoff).take (nindirectsyms * 4))) with
      | .error e => .error e
      | .ok inds =>
        if extreloff + nextrel * 8 ≤ bytes.length then
          match resolveExtRels oracle st.symTabInfo
              (chunksN nextrel 8 ((bytes.drop extreloff).take (nextrel * 8))) with
          | .error e => .error e
          | .ok pairs =>
            .ok { st with
                  indirectUndefSymbols := st.indirectUndefSymbols ++ inds,
                  extRelocs := st.extRelocs ++ pairs }
        else .error .fatal
    else .error .fatal
  | .encryptionInfo cryptId =>
    if cryptId ≠ 0 then .error (.err msgEncrypted) else .ok st
  | .loadDyLib name => .ok { st with dylibs := st.dylibs ++ [name] }
  | .dyldInfo => .ok st
  | .otherCommand => .ok st

/-- The per-entry size attached to the special dynamic-linker section
names, if any. -/
def dyldEntrySize (name : Str) : Option Nat :=
  if name = str "__symbol_stub4" then some 12
  else if name = str "__nl_symbol_ptr" ∨ name = str "__la_symbol_ptr" then some 4
  else none

/-- The indirect-symbol information of a special section. -/
structure DyldIndirectSymbolInfo where
  entry_size : Nat
  indirect_undef_symbols : List (Option Str)
deriving DecidableEq

/-- A section of the returned `MachO` record. -/
structure MachSection where
  name : Str
  addr : Nat
  size : Nat
  dyld_indirect_symbol_info : Option DyldIndirectSymbolInfo
deriving DecidableEq

/-- The post-processing of one accumulated section descriptor: narrow
`addr` and `size`, and for the special dynamic-linker sections move
`size / entry_size` entries out of the global indirect-undef-symbols
sequence starting at `reserved1` (the moved-out range keeping `none`
placeholders), after asserting `size % entry_size == 0`. -/
def processSectionDesc (g : List (Option Str)) (sd : SectionDesc) :
    Except LoadFailure (MachSection × List (Option Str)) :=
  if sd.addr < 2 ^ 32 ∧ sd.size < 2 ^ 32 then
    match dyldEntrySize sd.sectname with
    | none =>
      .ok ({ name := sd.sectname, addr := sd.addr, size := sd.size,
             dyld_indirect_symbol_info := none }, g)
    | some es =>
      if sd.size % es = 0 then
        if sd.reserved1 + sd.size / es ≤ g.length then
          .ok ({ name := sd.sectname, addr := sd.addr, size := sd.size,
                 dyld_indirect_symbol_info := some
                   ⟨es, (g.drop sd.reserved1).take (sd.size / es)⟩ },
               g.take sd.reserved1 ++ List.replicate (sd.size / es) none ++
                 g.drop (sd.reserved1 + sd.size / es))
        else .error .fatal
      else .error .fatal
  else .error .fatal

/-- The section post-processing loop of `load_from_bytes`, threading the
global indirect-undef-symbols sequence. -/
def postProcessSections (g : List (Option Str)) :
    List SectionDesc → Except LoadFailure (List MachSection × List (Option Str))
  | [] => .ok ([], g)
  | sd :: rest =>
    match processSectionDesc g sd with
    | .error e => .error e
    | .ok (sec, g') =>
      match postProcessSections g' rest with
      | .error e => .error e
      | .ok (secs, g'') => .ok (sec :: secs, g'')

/-- The metadata record returned by `load_from_bytes`. -/
structure MachO where
  entry_point_addr : Option Nat
  dynamic_libraries : List Str
  sections : List MachSection
  external_relocations : List (Nat × Str)

/-- `MachO::load_from_bytes`: header validation, the load-command loop,
then section post-processing. Returns the metadata record together with
the final loop state (whose `reserves`/`writes` fields are the
guest-memory call trace). -/
def loadFromBytes (oracle : LoaderOracle) (nullPageSize : Nat)
    (bytes : List Nat) (parsed : Option OFileRec) :
    Except LoadFailure (MachO × LoadState) :=
  match parsed with
  | none => .error (.err (str "Could not parse Mach-O file"))
  | some .fatFile => .error .fatal
  | some .arFile => .error (.err (str "Unexpected Mach-O file kind: not an executable"))
  | some .symDef => .error (.err (str "Unexpected Mach-O file kind: not an executable"))
  | some (.machFile header commands) =>
    if header.cputype ≠ CPU_TYPE_ARM then
      .error (.err (str "Executable is not for an ARM CPU!"))
    else if header.isBigend then
      .error (.err (str "Executable is not little-endian!"))
    else if header.is64bit then
      .error (.err (str "Executable is not 32-bit!"))
    else
      match commands.foldlM (processCommand oracle nullPageSize bytes) initLoadState with
      | .error e => .error e
      | .ok st =>
        match postProcessSections st.indirectUndefSymbols st.allSections with
        | .error e => .error e
        | .ok (secs, g) =>
          .ok ({ entry_point_addr := st.entryPoint,
                 dynamic_libraries := st.dylibs,
                 sections := secs,
                 external_relocations := st.extRelocs },
               { st with indirectUndefSymbols := g })

/-- Whether a load command is a `SymTab` command. -/
def isSymTabCmd : MachLoadCommand → Bool
  | .symTab _ _ _ _ => true
  | _ => false

/-- Whether a symbol is a `Defined` symbol named exactly `start`. -/
def isStartSym : MachSymbol → Bool
  | .defined (some n) _ => n == str "start"
  | _ => false

/-! ## Basic lemmas about the string utilities -/

theorem splitSlash_ne_nil (r : Str) : splitSlash r ≠ [] := by
  cases r with
  | nil => simp [splitSlash]
  | cons c rest =>
    simp only [splitSlash]
    split
    · simp
    · cases h : splitSlash rest <;> simp

theorem splitSlash_append (xs ys : Str) :
    splitSlash (xs ++ '/' :: ys) = splitSlash xs ++ splitSlash ys := by
  induction xs with
  | nil => simp [splitSlash]
  | cons c xs ih =>
    by_cases hc : c = '/'
    · simp [splitSlash, hc, ih]
    · cases h : splitSlash xs with
      | nil => exact absurd h (splitSlash_ne_nil xs)
      | cons p ps =>
        simp only [List.cons_append, splitSlash, if_neg hc, List.append_eq]
        rw [ih, h]
        simp [h]

theorem splitSlash_no_slash (xs : Str) (h : '/' ∉ xs) : splitSlash xs = [xs] := by
  induction xs with
  | nil => simp [splitSlash]
  | cons c rest ih =>
    simp only [List.mem_cons, not_or] at h
    simp only [splitSlash, if_neg (Ne.symm h.1), ih h.2]

theorem comps_append_slash (par fn : Str) (hfn : fn ≠ []) (hs : '/' ∉ fn) :
    comps (par ++ '/' :: fn) = comps par ++ [fn] := by
  simp only [comps, splitSlash_append, List.filter_append, splitSlash_no_slash fn hs]
  simp [List.isEmpty_iff, hfn]

theorem rsplitSlash_none (r : Str) (h : rsplitSlash r = none) : '/' ∉ r := by
  induction r with
  | nil => simp
  | cons c rest ih =>
    simp only [rsplitSlash] at h
    cases hr : rsplitSlash rest with
    | some pf => rw [hr] at h; obtain ⟨p, f⟩ := pf; simp at h
    | none =>
      rw [hr] at h
      by_cases hc : c = '/'
      · simp [hc] at h
      · simp only [List.mem_cons, not_or]
        exact ⟨Ne.symm hc, ih hr⟩

theorem rsplitSlash_eq (r par fn : Str) (h : rsplitSlash r = some (par, fn)) :
    r = par ++ '/' :: fn ∧ '/' ∉ fn := by
  induction r generalizing par fn with
  | nil => simp [rsplitSlash] at h
  | cons c rest ih =>
    simp only [rsplitSlash] at h
    cases hr : rsplitSlash rest with
    | some pf =>
      rw [hr] at h
      obtain ⟨p, f⟩ := pf
      simp only [Option.some.injEq, Prod.mk.injEq] at h
      obtain ⟨h1, h2⟩ := h
      obtain ⟨he, hs⟩ := ih p f hr
      subst h1 h2
      subst he
      simp [hs]
    | none =>
      rw [hr] at h
      by_cases hc : c = '/'
      · simp only [if_pos hc, Option.some.injEq, Prod.mk.injEq] at h
        obtain ⟨h1, h2⟩ := h
        subst h1 h2 hc
        exact ⟨rfl, rsplitSlash_none rest hr⟩
      · simp [if_neg hc] at h

theorem comps_of_rsplit (r par fn : Str) (h : rsplitSlash r = some (par, fn))
    (hfn : fn ≠ []) : comps r = comps par ++ [fn] := by
  obtain ⟨he, hs⟩ := rsplitSlash_eq r par fn h
  rw [he]
  exact comps_append_slash par fn hfn hs

theorem nil_not_mem_comps (r : Str) : [] ∉ comps r := by
  intro h
  simp only [comps, List.mem_filter] at h
  simp [List.isEmpty_iff] at h

theorem isLeadB_iff (p q : List α) [DecidableEq α] :
    isLeadB p q = true ↔ ∃ r, p ++ r = q := by
  induction p generalizing q with
  | nil => simp [isLeadB]
  | cons a as ih =>
    cases q with
    | nil => simp [isLeadB]
    | cons b bs =>
      simp only [isLeadB, Bool.and_eq_true, decide_eq_true_eq, ih]
      constructor
      · rintro ⟨rfl, r, rfl⟩; exact ⟨r, rfl⟩
      · rintro ⟨r, hr⟩
        simp only [List.cons_append, List.cons.injEq] at hr
        exact ⟨hr.1, r, hr.2⟩

theorem isLeadB_refl (p : List α) [DecidableEq α] : isLeadB p p = true := by
  rw [isLeadB_iff]; exact ⟨[], by simp⟩

theorem isLeadB_nil_right (p : List α) [DecidableEq α] :
    isLeadB p [] = true ↔ p = [] := by
  rw [isLeadB_iff]; simp

theorem isLeadB_nil_left (q : List α) [DecidableEq α] : isLeadB [] q = true := by
  rw [isLeadB_iff]; exact ⟨q, rfl⟩

theorem isLeadB_cons_cons (a b : α) (p q : List α) [DecidableEq α] :
    isLeadB (a :: p) (b :: q) = true ↔ a = b ∧ isLeadB p q = true := by
  simp [isLeadB]

theorem isLeadB_length (p q : List α) [DecidableEq α] (h : isLeadB p q = true) :
    p.length ≤ q.length := by
  rw [isLeadB_iff] at h
  obtain ⟨r, rfl⟩ := h
  simp

theorem mem_of_isLeadB (p q : List α) [DecidableEq α] (h : isLeadB p q = true)
    (a : α) (ha : a ∈ p) : a ∈ q := by
  rw [isLeadB_iff] at h
  obtain ⟨r, rfl⟩ := h
  exact List.mem_append_left r ha

theorem isLeadB_trans (p q r : List α) [DecidableEq α]
    (h1 : isLeadB p q = true) (h2 : isLeadB q r = true) : isLeadB p r = true := by
  rw [isLeadB_iff] at h1 h2 ⊢
  obtain ⟨u, rfl⟩ := h1
  obtain ⟨v, rfl⟩ := h2
  exact ⟨u ++ v, by simp⟩

theorem isLeadB_append_right (p r : List α) [DecidableEq α] :
    isLeadB p (p ++ r) = true := by
  rw [isLeadB_iff]; exact ⟨r, rfl⟩

theorem isLeadB_concat (p q : List α) (x : α) [DecidableEq α] :
    isLeadB p (q ++ [x]) = true ↔ isLeadB p q = true ∨ p = q ++ [x] := by
  constructor
  · intro h
    rw [isLeadB_iff] at h
    obtain ⟨r, hr⟩ := h
    cases r using List.reverseRecOn with
    | nil => right; simpa using hr
    | append_singleton s y =>
      left
      rw [isLeadB_iff]
      rw [← List.append_assoc] at hr
      have := List.append_inj' hr rfl
      exact ⟨s, this.1⟩
  · rintro (h | rfl)
    · exact isLeadB_trans p q (q ++ [x]) h (isLeadB_append_right q [x])
    · exact isLeadB_refl _

theorem isLeadB_antisymm (p q : List α) [DecidableEq α]
    (h1 : isLeadB p q = true) (h2 : isLeadB q p = true) : p = q := by
  rw [isLeadB_iff] at h1 h2
  obtain ⟨u, rfl⟩ := h1
  obtain ⟨v, hv⟩ := h2
  have : u = [] := by
    have hl := congrArg List.length hv
    simp at hl
    exact hl.1
  simp [this]

theorem mem_nePres (p l : List α) : p ∈ nePres l ↔ p ≠ [] ∧ ∃ r, p ++ r = l := by
  induction l generalizing p with
  | nil => simp [nePres]
  | cons a as ih =>
    simp only [nePres, List.mem_cons, List.mem_map]
    constructor
    · rintro (rfl | ⟨q, hq, rfl⟩)
      · exact ⟨by simp, as, rfl⟩
      · obtain ⟨hne, r, hr⟩ := (ih q).mp hq
        exact ⟨by simp, r, by simp [hr]⟩
    · rintro ⟨hne, r, hr⟩
      cases p with
      | nil => simp at hne
      | cons b bs =>
        simp only [List.cons_append, List.cons.injEq] at hr
        obtain ⟨rfl, hr⟩ := hr
        cases bs with
        | nil => left; rfl
        | cons c cs =>
          right
          exact ⟨c :: cs, (ih _).mpr ⟨by simp, r, hr⟩, rfl⟩

theorem mem_nePres_iff_isLeadB (p l : List α) [DecidableEq α] :
    p ∈ nePres l ↔ p ≠ [] ∧ isLeadB p l = true := by
  rw [mem_nePres, isLeadB_iff]

/-! ## Lemmas about the children mapping and tree traversal -/

theorem lookupChild_insertChild_self (ch : List (Str × FsNode)) (k : Str)
    (v : FsNode) : lookupChild (insertChild ch k v) k = some v := by
  induction ch with
  | nil => simp [insertChild, lookupChild]
  | cons p rest ih =>
    obtain ⟨k', w⟩ := p
    by_cases h : k' = k
    · simp [insertChild, h, lookupChild]
    · simp [insertChild, h, lookupChild, ih]

theorem lookupChild_insertChild_ne (ch : List (Str × FsNode)) (k k' : Str)
    (v : FsNode) (h : k' ≠ k) :
    lookupChild (insertChild ch k v) k' = lookupChild ch k' := by
  induction ch with
  | nil => simp [insertChild, lookupChild, Ne.symm h]
  | cons p rest ih =>
    obtain ⟨k0, w⟩ := p
    by_cases h0 : k0 = k
    · subst h0
      simp [insertChild, lookupChild, Ne.symm h]
    · simp only [insertChild, if_neg h0, lookupChild]
      by_cases h1 : k0 = k'
      · simp [h1]
      · simp [h1, ih]

theorem mem_insertChild (ch : List (Str × FsNode)) (k : Str) (v : FsNode)
    (x : Str × FsNode) (hx : x ∈ insertChild ch k v) :
    x ∈ ch ∨ x = (k, v) := by
  induction ch with
  | nil => simp [insertChild] at hx; simp [hx]
  | cons p rest ih =>
    obtain ⟨k0, w⟩ := p
    by_cases h0 : k0 = k
    · simp only [insertChild, if_pos h0, List.mem_cons] at hx
      rcases hx with rfl | hx
      · right; rfl
      · left; exact List.mem_cons_of_mem _ hx
    · simp only [insertChild, if_neg h0, List.mem_cons] at hx
      rcases hx with rfl | hx
      · left; exact List.mem_cons_self _ _
      · rcases ih hx with h | h
        · left; exact List.mem_cons_of_mem _ h
        · right; exact h

theorem lookupChild_none_iff (ch : List (Str × FsNode)) (k : Str) :
    lookupChild ch k = none ↔ k ∉ ch.map Prod.fst := by
  induction ch with
  | nil => simp [lookupChild]
  | cons p rest ih =>
    obtain ⟨k0, w⟩ := p
    by_cases h0 : k0 = k
    · subst h0
      simp [lookupChild]
    · simp [lookupChild, h0, ih, Ne.symm h0]

theorem keys_insertChild_found (ch : List (Str × FsNode)) (k : Str)
    (v w : FsNode) (h : lookupChild ch k = some w) :
    (insertChild ch k v).map Prod.fst = ch.map Prod.fst := by
  induction ch with
  | nil => simp [lookupChild] at h
  | cons p rest ih =>
    obtain ⟨k0, w0⟩ := p
    by_cases h0 : k0 = k
    · subst h0
      simp [insertChild]
    · simp only [lookupChild, if_neg h0] at h
      simp [insertChild, h0, ih h]

theorem keys_insertChild_missing (ch : List (Str × FsNode)) (k : Str)
    (v : FsNode) (h : lookupChild ch k = none) :
    (insertChild ch k v).map Prod.fst = ch.map Prod.fst ++ [k] := by
  induction ch with
  | nil => simp [insertChild]
  | cons p rest ih =>
    obtain ⟨k0, w0⟩ := p
    by_cases h0 : k0 = k
    · subst h0
      simp [lookupChild] at h
    · simp only [lookupChild, if_neg h0] at h
      simp [insertChild, h0, ih h]

theorem keys_insertChild (ch : List (Str × FsNode)) (k : Str) (v : FsNode)
    (hnd : (ch.map Prod.fst).Nodup) :
    ((insertChild ch k v).map Prod.fst).Nodup := by
  cases h : lookupChild ch k with
  | some w => rw [keys_insertChild_found ch k v w h]; exact hnd
  | none =>
    rw [keys_insertChild_missing ch k v h]
    have := (lookupChild_none_iff ch k).mp h
    simp [List.nodup_append, hnd, this]

theorem lookupChild_of_mem (ch : List (Str × FsNode)) (k : Str) (v : FsNode)
    (hnd : (ch.map Prod.fst).Nodup) (h : (k, v) ∈ ch) :
    lookupChild ch k = some v := by
  induction ch with
  | nil => simp at h
  | cons p rest ih =>
    obtain ⟨k0, w⟩ := p
    simp only [List.map_cons, List.nodup_cons] at hnd
    rcases List.mem_cons.mp h with heq | hmem
    · rw [Prod.mk.injEq] at heq
      obtain ⟨rfl, rfl⟩ := heq
      simp [lookupChild]
    · by_cases h0 : k0 = k
      · subst h0
        exact absurd (List.mem_map.mpr ⟨(k0, v), hmem, rfl⟩) hnd.1
      · simp only [lookupChild, if_neg h0]
        exact ih hnd.2 hmem

theorem mem_of_lookupChild (ch : List (Str × FsNode)) (k : Str) (v : FsNode)
    (h : lookupChild ch k = some v) : (k, v) ∈ ch := by
  induction ch with
  | nil => simp [lookupChild] at h
  | cons p rest ih =>
    obtain ⟨k0, w⟩ := p
    by_cases h0 : k0 = k
    · simp only [lookupChild, if_pos h0, Option.some.injEq] at h
      subst h0 h
      exact List.mem_cons_self _ _
    · simp only [lookupChild, if_neg h0] at h
      exact List.mem_cons_of_mem _ (ih h)

theorem wfChildren_iff (ch : List (Str × FsNode)) :
    wfChildren ch = true ↔ ∀ x ∈ ch, wfNode x.2 = true := by
  induction ch with
  | nil => simp [wfChildren]
  | cons p rest ih =>
    obtain ⟨k, v⟩ := p
    simp [wfChildren, ih]

theorem wfNode_dir_iff (ch : List (Str × FsNode)) :
    wfNode (.dir ch) = true ↔
      (ch.map Prod.fst).Nodup ∧ ∀ x ∈ ch, wfNode x.2 = true := by
  simp [wfNode, wfChildren_iff]

theorem wfNode_insertChild (ch : List (Str × FsNode)) (k : Str) (v : FsNode)
    (hch : wfNode (.dir ch) = true) (hv : wfNode v = true) :
    wfNode (.dir (insertChild ch k v)) = true := by
  rw [wfNode_dir_iff] at hch ⊢
  refine ⟨keys_insertChild ch k v hch.1, fun x hx => ?_⟩
  rcases mem_insertChild ch k v x hx with h | rfl
  · exact hch.2 x h
  · exact hv

theorem mem_childPaths (ch : List (Str × FsNode)) (x : List Str × Bool) :
    x ∈ childPaths ch ↔
      ∃ name c, (name, c) ∈ ch ∧ ∃ pb ∈ nodePaths c, x = (name :: pb.1, pb.2) := by
  induction ch with
  | nil => simp [childPaths]
  | cons p rest ih =>
    obtain ⟨name0, c0⟩ := p
    simp only [childPaths, List.mem_append, List.mem_map, ih]
    constructor
    · rintro (⟨pb, hpb, rfl⟩ | ⟨name, c, hmem, pb, hpb, rfl⟩)
      · exact ⟨name0, c0, List.mem_cons_self _ _, pb, hpb, rfl⟩
      · exact ⟨name, c, List.mem_cons_of_mem _ hmem, pb, hpb, rfl⟩
    · rintro ⟨name, c, hmem, pb, hpb, rfl⟩
      rcases List.mem_cons.mp hmem with heq | hmem
      · rw [Prod.mk.injEq] at heq
        obtain ⟨rfl, rfl⟩ := heq
        exact Or.inl ⟨pb, hpb, rfl⟩
      · exact Or.inr ⟨name, c, hmem, pb, hpb, rfl⟩

theorem kindAt_nil (t : FsNode) : kindAt t [] = some t.isDirB := by
  simp [kindAt, nodeAt]

theorem kindAt_cons (ch : List (Str × FsNode)) (c : Str) (p : List Str) :
    kindAt (.dir ch) (c :: p) =
      match lookupChild ch c with
      | none => none
      | some child => kindAt child p := by
  simp only [kindAt, nodeAt]
  cases lookupChild ch c <;> simp

theorem kindAt_file_cons (j : Nat) (c : Str) (p : List Str) :
    kindAt (.file j) (c :: p) = none := by
  simp [kindAt, nodeAt]

theorem mem_nodePaths (t : FsNode) (p : List Str) (b : Bool)
    (hwf : wfNode t = true) :
    (p, b) ∈ nodePaths t ↔ kindAt t p = some b := by
  induction p generalizing t with
  | nil =>
    cases t with
    | file j =>
      simp [nodePaths, kindAt, nodeAt, FsNode.isDirB, eq_comm]
    | dir ch =>
      constructor
      · intro h
        rcases List.mem_cons.mp h with heq | hmem
        · rw [Prod.mk.injEq] at heq
          rw [kindAt_nil, heq.2]
          rfl
        · exfalso
          rcases (mem_childPaths ch _).mp hmem with ⟨name, c, _, pb, _, heq⟩
          rw [Prod.mk.injEq] at heq
          exact List.noConfusion heq.1
      · intro h
        rw [kindAt_nil] at h
        simp only [FsNode.isDirB, Option.some.injEq] at h
        subst h
        exact List.mem_cons_self _ _
  | cons c p ih =>
    cases t with
    | file j =>
      simp [nodePaths, kindAt_file_cons]
    | dir ch =>
      rw [wfNode_dir_iff] at hwf
      simp only [nodePaths, List.mem_cons, mem_childPaths, kindAt_cons]
      constructor
      · rintro (heq | ⟨name, child, hmem, pb, hpb, heq⟩)
        · simp at heq
        · rw [Prod.mk.injEq] at heq
          obtain ⟨heq1, rfl⟩ := heq
          rw [List.cons.injEq] at heq1
          obtain ⟨rfl, rfl⟩ := heq1
          rw [lookupChild_of_mem ch c child hwf.1 hmem]
          exact (ih child (hwf.2 _ hmem)).mp (by simpa using hpb)
      · intro h
        cases hlk : lookupChild ch c with
        | none => rw [hlk] at h; simp at h
        | some child =>
          rw [hlk] at h
          right
          refine ⟨c, child, mem_of_lookupChild ch c child hlk, (p, b), ?_, rfl⟩
          exact (ih child (hwf.2 _ (mem_of_lookupChild ch c child hlk))).mpr h

/-! ## Effect of the builder insertions on the tree -/

theorem eq_dir_of_kindAt_nil (t : FsNode) (h : kindAt t [] ≠ some false) :
    ∃ ch, t = .dir ch := by
  cases t with
  | dir ch => exact ⟨ch, rfl⟩
  | file j => exact absurd (kindAt_nil _) h

theorem kindAt_emptyDir (p : List Str) (h : p ≠ []) :
    kindAt (FsNode.dir []) p = none := by
  cases p with
  | nil => simp at h
  | cons c rest => simp [kindAt_cons, lookupChild]

theorem eq_file_of_isDirB_false (t : FsNode) (h : t.isDirB = false) :
    ∃ j, t = .file j := by
  cases t with
  | dir ch => simp [FsNode.isDirB] at h
  | file j => exact ⟨j, rfl⟩

theorem kindAt_file (j : Nat) (p : List Str) (h : p ≠ []) :
    kindAt (FsNode.file j) p = none := by
  cases p with
  | nil => simp at h
  | cons c rest => simp [kindAt_file_cons]

theorem kindAt_cons_lookup (ch : List (Str × FsNode)) (c : Str) (p : List Str)
    (child : FsNode) (h : lookupChild ch c = some child) :
    kindAt (.dir ch) (c :: p) = kindAt child p := by
  rw [kindAt_cons, h]

theorem kindAt_cons_missing (ch : List (Str × FsNode)) (c : Str) (p : List Str)
    (h : lookupChild ch c = none) :
    kindAt (.dir ch) (c :: p) = none := by
  rw [kindAt_cons, h]

theorem updateAtPath_dir_effect (parts : List Str) (t : FsNode)
    (hwf : wfNode t = true)
    (hdd : ∀ c ∈ parts.filter (fun c => !c.isEmpty), c ≠ str "..")
    (hnofile : ∀ q, isLeadB q (parts.filter (fun c => !c.isEmpty)) = true →
      kindAt t q ≠ some false) :
    ∃ t', updateAtPath t parts .ok = .ok t' ∧ wfNode t' = true ∧
      ∀ p, kindAt t' p =
        if isLeadB p (parts.filter (fun c => !c.isEmpty)) then some true
        else kindAt t p := by
  induction parts generalizing t with
  | nil =>
    refine ⟨t, rfl, hwf, fun p => ?_⟩
    by_cases hp : p = []
    · subst hp
      obtain ⟨ch, rfl⟩ := eq_dir_of_kindAt_nil t (hnofile [] (isLeadB_nil_left _))
      simp [kindAt_nil, FsNode.isDirB, isLeadB_nil_left]
    · have hlf : isLeadB p ([] : List Str) = false := by
        cases p with
        | nil => simp at hp
        | cons a as => simp [isLeadB]
      simp [hlf]
  | cons c rest ih =>
    by_cases hce : c.isEmpty
    · have heq : updateAtPath t (c :: rest) .ok = updateAtPath t rest .ok := by
        simp [updateAtPath, hce]
      have hfe : (c :: rest).filter (fun c => !c.isEmpty) =
          rest.filter (fun c => !c.isEmpty) := by
        simp [List.filter_cons, hce]
      rw [heq, hfe]
      rw [hfe] at hdd hnofile
      exact ih t hwf hdd hnofile
    · have hfe : (c :: rest).filter (fun c => !c.isEmpty) =
          c :: rest.filter (fun c => !c.isEmpty) := by
        simp [List.filter_cons, hce]
      rw [hfe] at hdd hnofile
      have hcd : c ≠ str ".." := hdd c (List.mem_cons_self _ _)
      obtain ⟨ch, rfl⟩ := eq_dir_of_kindAt_nil t (hnofile [] (isLeadB_nil_left _))
      rw [wfNode_dir_iff] at hwf
      set F := rest.filter (fun c => !c.isEmpty) with hF
      set child := (lookupChild ch c).getD (FsNode.dir []) with hchild
      have hchildwf : wfNode child = true := by
        rw [hchild]
        cases hlk : lookupChild ch c with
        | none => rfl
        | some c0 => exact hwf.2 _ (mem_of_lookupChild ch c c0 hlk)
      have hchildk : ∀ q, kindAt child q = kindAt (FsNode.dir ch) (c :: q) ∨
          (lookupChild ch c = none ∧ child = FsNode.dir []) := by
        intro q
        cases hlk : lookupChild ch c with
        | none => right; exact ⟨rfl, by rw [hchild, hlk]; rfl⟩
        | some c0 =>
          left
          rw [hchild, hlk, Option.getD_some, kindAt_cons_lookup ch c q c0 hlk]
      have hchildnofile : ∀ q, isLeadB q F = true → kindAt child q ≠ some false := by
        intro q hq
        rcases hchildk q with h | ⟨hlk, hch⟩
        · rw [h]
          exact hnofile (c :: q) (by simp [isLeadB, hq])
        · rw [hch]
          by_cases hqn : q = []
          · subst hqn; simp [kindAt_nil, FsNode.isDirB]
          · rw [kindAt_emptyDir q hqn]; simp
      have hchilddd : ∀ c' ∈ F, c' ≠ str ".." := fun c' hc' =>
        hdd c' (List.mem_cons_of_mem _ hc')
      obtain ⟨t'', hok, hwf'', hform⟩ := ih child hchildwf hchilddd hchildnofile
      refine ⟨.dir (insertChild ch c t''), ?_, ?_, ?_⟩
      · simp only [updateAtPath]
        rw [if_neg hce, if_neg hcd, ← hchild, hok]
      · exact wfNode_insertChild ch c t'' (wfNode_dir_iff ch |>.mpr hwf) hwf''
      · intro p
        rw [hfe]
        cases p with
        | nil =>
          simp [kindAt_nil, FsNode.isDirB, isLeadB_nil_left]
        | cons d p' =>
          by_cases hdc : d = c
          · subst hdc
            rw [kindAt_cons_lookup _ d p' t'' (lookupChild_insertChild_self ch d t'')]
            have hlead : isLeadB (d :: p') (d :: F) = isLeadB p' F := by
              simp [isLeadB]
            rw [hform p', hlead]
            by_cases hpf : isLeadB p' F
            · simp [hpf]
            · simp only [Bool.not_eq_true] at hpf
              rw [hpf]
              simp only [if_neg (by simp : ¬(false = true))]
              rcases hchildk p' with h | ⟨hlk, hch⟩
              · rw [h]
              · rw [hch]
                have hp'ne : p' ≠ [] := by
                  rintro rfl
                  rw [isLeadB_nil_left] at hpf
                  simp at hpf
                rw [kindAt_emptyDir p' hp'ne, kindAt_cons_missing ch d p' hlk]
          · have hlead : isLeadB (d :: p') (c :: F) = false := by
              simp [isLeadB, hdc]
            simp only [hlead, Bool.false_eq_true, if_false]
            rw [kindAt_cons, lookupChild_insertChild_ne ch c d t'' hdc, ← kindAt_cons]

theorem updateAtPath_file_effect (parts : List Str) (t : FsNode) (fn : Str)
    (j : Nat) (hwf : wfNode t = true)
    (hdd : ∀ c ∈ parts.filter (fun c => !c.isEmpty), c ≠ str "..")
    (hnofile : ∀ q, isLeadB q (parts.filter (fun c => !c.isEmpty)) = true →
      kindAt t q ≠ some false)
    (hnodir : kindAt t (parts.filter (fun c => !c.isEmpty) ++ [fn]) ≠ some true) :
    ∃ t', updateAtPath t parts (fun d =>
        match d with
        | .dir ch => .ok (.dir (insertChild ch fn (.file j)))
        | .file _ => .error .expectedDir) = .ok t' ∧ wfNode t' = true ∧
      ∀ p, kindAt t' p =
        if p = parts.filter (fun c => !c.isEmpty) ++ [fn] then some false
        else if isLeadB p (parts.filter (fun c => !c.isEmpty)) then some true
        else kindAt t p := by
  induction parts generalizing t with
  | nil =>
    obtain ⟨ch, rfl⟩ := eq_dir_of_kindAt_nil t (hnofile [] (isLeadB_nil_left _))
    simp only [List.filter_nil, List.nil_append] at hnodir ⊢
    refine ⟨.dir (insertChild ch fn (.file j)), rfl, ?_, fun p => ?_⟩
    · exact wfNode_insertChild ch fn (.file j) hwf rfl
    · cases p with
      | nil =>
        have : ([] : List Str) ≠ [fn] := by simp
        simp [kindAt_nil, FsNode.isDirB, this, isLeadB_nil_left]
      | cons d p' =>
        by_cases hdf : d = fn
        · subst hdf
          rw [kindAt_cons_lookup _ d p' _ (lookupChild_insertChild_self ch d (.file j))]
          cases p' with
          | nil =>
            simp [kindAt_nil, FsNode.isDirB]
          | cons e p'' =>
            have hne : d :: e :: p'' ≠ [d] := by simp
            have hlf : isLeadB (d :: e :: p'') ([] : List Str) = false := by
              simp [isLeadB]
            simp only [hne, if_false, hlf, Bool.false_eq_true]
            rw [kindAt_file_cons]
            cases hlk : lookupChild ch d with
            | none => rw [kindAt_cons_missing ch d (e :: p'') hlk]
            | some c0 =>
              rw [kindAt_cons_lookup ch d (e :: p'') c0 hlk]
              have : kindAt (FsNode.dir ch) [d] ≠ some true := hnodir
              rw [kindAt_cons_lookup ch d [] c0 hlk, kindAt_nil] at this
              obtain ⟨j0, rfl⟩ := eq_file_of_isDirB_false c0 (by
                cases hb : c0.isDirB with
                | true => exact absurd (by rw [hb]) this
                | false => rfl)
              rw [kindAt_file j0 (e :: p'') (by simp)]
        · have hne : d :: p' ≠ [fn] := by simp [hdf]
          have hlf : isLeadB (d :: p') ([] : List Str) = false := by simp [isLeadB]
          simp only [hne, if_false, hlf, Bool.false_eq_true]
          rw [kindAt_cons, lookupChild_insertChild_ne ch fn d (.file j) hdf, ← kindAt_cons]
  | cons c rest ih =>
    by_cases hce : c.isEmpty
    · have heq : ∀ k, updateAtPath t (c :: rest) k = updateAtPath t rest k := by
        intro k
        simp [updateAtPath, hce]
      have hfe : (c :: rest).filter (fun c => !c.isEmpty) =
          rest.filter (fun c => !c.isEmpty) := by
        simp [List.filter_cons, hce]
      rw [heq, hfe]
      rw [hfe] at hdd hnofile hnodir
      exact ih t hwf hdd hnofile hnodir
    · have hfe : (c :: rest).filter (fun c => !c.isEmpty) =
          c :: rest.filter (fun c => !c.isEmpty) := by
        simp [List.filter_cons, hce]
      rw [hfe] at hdd hnofile hnodir
      have hcd : c ≠ str ".." := hdd c (List.mem_cons_self _ _)
      obtain ⟨ch, rfl⟩ := eq_dir_of_kindAt_nil t (hnofile [] (isLeadB_nil_left _))
      rw [wfNode_dir_iff] at hwf
      set F := rest.filter (fun c => !c.isEmpty) with hF
      set child := (lookupChild ch c).getD (FsNode.dir []) with hchild
      have hchildwf : wfNode child = true := by
        rw [hchild]
        cases hlk : lookupChild ch c with
        | none => rfl
        | some c0 => exact hwf.2 _ (mem_of_lookupChild ch c c0 hlk)
      have hchildk : ∀ q, kindAt child q = kindAt (FsNode.dir ch) (c :: q) ∨
          (lookupChild ch c = none ∧ child = FsNode.dir []) := by
        intro q
        cases hlk : lookupChild ch c with
        | none => right; exact ⟨rfl, by rw [hchild, hlk]; rfl⟩
        | some c0 =>
          left
          rw [hchild, hlk, Option.getD_some, kindAt_cons_lookup ch c q c0 hlk]
      have hchildnofile : ∀ q, isLeadB q F = true → kindAt child q ≠ some false := by
        intro q hq
        rcases hchildk q with h | ⟨hlk, hch⟩
        · rw [h]
          exact hnofile (c :: q) (by simp [isLeadB, hq])
        · rw [hch]
          by_cases hqn : q = []
          · subst hqn; simp [kindAt_nil, FsNode.isDirB]
          · rw [kindAt_emptyDir q hqn]; simp
      have hchildnodir : kindAt child (F ++ [fn]) ≠ some true := by
        rcases hchildk (F ++ [fn]) with h | ⟨hlk, hch⟩
        · rw [h]
          exact hnodir
        · rw [hch, kindAt_emptyDir (F ++ [fn]) (by simp)]
          simp
      have hchilddd : ∀ c' ∈ F, c' ≠ str ".." := fun c' hc' =>
        hdd c' (List.mem_cons_of_mem _ hc')
      obtain ⟨t'', hok, hwf'', hform⟩ := ih child hchildwf hchilddd hchildnofile hchildnodir
      refine ⟨.dir (insertChild ch c t''), ?_, ?_, ?_⟩
      · simp only [updateAtPath]
        rw [if_neg hce, if_neg hcd, ← hchild, hok]
      · exact wfNode_insertChild ch c t'' (wfNode_dir_iff ch |>.mpr hwf) hwf''
      · intro p
        rw [hfe]
        simp only [List.cons_append]
        cases p with
        | nil =>
          have hne : ([] : List Str) ≠ c :: (F ++ [fn]) := by simp
          simp [kindAt_nil, FsNode.isDirB, hne, isLeadB_nil_left]
        | cons d p' =>
          by_cases hdc : d = c
          · subst hdc
            rw [kindAt_cons_lookup _ d p' t'' (lookupChild_insertChild_self ch d t'')]
            have hne : (d :: p' = d :: F ++ [fn]) ↔ (p' = F ++ [fn]) := by simp
            have hlead : isLeadB (d :: p') (d :: F) = isLeadB p' F := by
              simp [isLeadB]
            rw [hform p']
            by_cases hpt : p' = F ++ [fn]
            · simp [hpt]
            · rw [if_neg hpt, if_neg (by simp [hpt] : ¬(d :: p' = d :: (F ++ [fn])))]
              rw [hlead]
              by_cases hpf : isLeadB p' F
              · simp [hpf]
              · simp only [Bool.not_eq_true] at hpf
                rw [hpf]
                simp only [Bool.false_eq_true, if_false]
                rcases hchildk p' with h | ⟨hlk, hch⟩
                · rw [h]
                · rw [hch]
                  have hp'ne : p' ≠ [] := by
                    rintro rfl
                    rw [isLeadB_nil_left] at hpf
                    simp at hpf
                  rw [kindAt_emptyDir p' hp'ne, kindAt_cons_missing ch d p' hlk]
          · have hne : ¬(d :: p' = c :: (F ++ [fn])) := by simp [hdc]
            have hlead : isLeadB (d :: p') (c :: F) = false := by
              simp [isLeadB, hdc]
            rw [if_neg hne]
            simp only [hlead, Bool.false_eq_true, if_false]
            rw [kindAt_cons, lookupChild_insertChild_ne ch c d t'' hdc, ← kindAt_cons]

/-! ## Characterizations of the expected traversal set -/

theorem expectedSet_append (l1 l2 : List ZipEntry) (bp : Str) :
    expectedSet (l1 ++ l2) bp = expectedSet l1 bp ++ expectedSet l2 bp := by
  simp [expectedSet]

theorem expectedSet_sub (l1 l2 : List ZipEntry) (bp : Str)
    (x : List Str × Bool) (h : x ∈ expectedSet l1 bp) :
    x ∈ expectedSet (l1 ++ l2) bp := by
  rw [expectedSet_append]
  exact List.mem_append_left _ h

theorem mem_expectedOf_sub (l : List ZipEntry) (bp : Str) (e : ZipEntry)
    (he : e ∈ l) (x : List Str × Bool) (h : x ∈ expectedOf bp e) :
    x ∈ expectedSet l bp := by
  exact List.mem_flatMap.mpr ⟨e, he, h⟩

theorem expFalse (l : List ZipEntry) (bp : Str) (q : List Str)
    (h : (q, false) ∈ expectedSet l bp) :
    ∃ e ∈ l, e.isDir = false ∧ ∃ r par fn, stripPre bp e.name = some r ∧
      rsplitSlash r = some (par, fn) ∧ q = comps par ++ [fn] := by
  rw [expectedSet, List.mem_flatMap] at h
  obtain ⟨e, he, hx⟩ := h
  refine ⟨e, he, ?_⟩
  cases hr : stripPre bp e.name with
  | none => simp only [expectedOf, hr] at hx; simp at hx
  | some r =>
    cases hd : e.isDir with
    | true =>
      simp only [expectedOf, hr, hd, if_pos rfl] at hx
      simp at hx
    | false =>
      simp only [expectedOf, hr, hd, Bool.false_eq_true, if_false] at hx
      cases hsp : rsplitSlash r with
      | none => rw [hsp] at hx; simp at hx
      | some pf =>
        obtain ⟨par, fn⟩ := pf
        rw [hsp] at hx
        simp only [List.mem_append, List.mem_map, List.mem_singleton,
          Prod.mk.injEq] at hx
        rcases hx with ⟨a, _, _, hfalse⟩ | ⟨hq, _⟩
        · exact absurd hfalse (by simp)
        · exact ⟨rfl, r, par, fn, rfl, hsp, hq⟩

theorem expTrue (l : List ZipEntry) (bp : Str) (q : List Str)
    (h : (q, true) ∈ expectedSet l bp) :
    ∃ e ∈ l, ∃ r, stripPre bp e.name = some r ∧ q ≠ [] ∧
      ((e.isDir = true ∧ isLeadB q (comps r) = true) ∨
       (e.isDir = false ∧ ∃ par fn, rsplitSlash r = some (par, fn) ∧
         isLeadB q (comps par) = true)) := by
  rw [expectedSet, List.mem_flatMap] at h
  obtain ⟨e, he, hx⟩ := h
  refine ⟨e, he, ?_⟩
  cases hr : stripPre bp e.name with
  | none => simp only [expectedOf, hr] at hx; simp at hx
  | some r =>
    cases hd : e.isDir with
    | true =>
      simp only [expectedOf, hr, hd] at hx
      rw [if_pos trivial] at hx
      rw [List.mem_map] at hx
      obtain ⟨a, ha, heq⟩ := hx
      rw [Prod.mk.injEq] at heq
      obtain ⟨heq1, _⟩ := heq
      subst heq1
      obtain ⟨hne, hlead⟩ := (mem_nePres_iff_isLeadB a (comps r)).mp ha
      exact ⟨r, rfl, hne, Or.inl ⟨rfl, hlead⟩⟩
    | false =>
      simp only [expectedOf, hr, hd, Bool.false_eq_true, if_false] at hx
      cases hsp : rsplitSlash r with
      | none => rw [hsp] at hx; simp at hx
      | some pf =>
        obtain ⟨par, fn⟩ := pf
        rw [hsp] at hx
        simp only [List.mem_append, List.mem_map, List.mem_singleton,
          Prod.mk.injEq] at hx
        rcases hx with ⟨a, ha, haq, _⟩ | ⟨_, hfalse⟩
        · obtain ⟨hne, hlead⟩ := (mem_nePres_iff_isLeadB a (comps par)).mp ha
          subst haq
          exact ⟨r, rfl, hne, Or.inr ⟨rfl, par, fn, hsp, hlead⟩⟩
        · exact absurd hfalse (by simp)

theorem hypOk_entryOk (l : List ZipEntry) (bp : Str) (h : hypOk l bp = true)
    (e : ZipEntry) (he : e ∈ l) : entryOk bp e = true := by
  rw [hypOk, Bool.and_eq_true, List.all_eq_true] at h
  exact h.1 e he

theorem entryOk_spec (bp : Str) (e : ZipEntry) (h : entryOk bp e = true)
    (r : Str) (hr : stripPre bp e.name = some r) :
    (∀ c ∈ comps r, c ≠ str "..") ∧
    (e.isDir = false → ∃ par fn, rsplitSlash r = some (par, fn) ∧ fn ≠ []) := by
  simp only [entryOk, hr, Bool.and_eq_true] at h
  constructor
  · intro c hc
    have hcc := (List.all_eq_true.mp h.1) c hc
    simp only [Bool.not_eq_true', beq_eq_false_iff_ne] at hcc
    exact hcc
  · intro hd
    have h2 := h.2
    rw [hd, Bool.false_or] at h2
    cases hsp : rsplitSlash r with
    | none => rw [hsp] at h2; exact absurd h2 (by simp)
    | some pf =>
      obtain ⟨par, fn⟩ := pf
      rw [hsp] at h2
      refine ⟨par, fn, rfl, ?_⟩
      intro hfn
      rw [hfn] at h2
      simp at h2

theorem noConflict_spec (l : List ZipEntry) (bp : Str)
    (h : noConflict l bp = true) (e : ZipEntry) (he : e ∈ l)
    (e2 : ZipEntry) (he2 : e2 ∈ l) (r r2 : Str)
    (hr : stripPre bp e.name = some r) (hd : e.isDir = false)
    (hr2 : stripPre bp e2.name = some r2) :
    (isLeadB (comps r) (comps r2) = true → comps r = comps r2) ∧
    (comps r = comps r2 → e2.isDir = false) := by
  rw [noConflict, List.all_eq_true] at h
  have h1 := h e he
  simp only [relPathOf, hr, Option.map_some', hd, List.all_eq_true] at h1
  have h2 := h1 e2 he2
  simp only [relPathOf, hr2, Option.map_some', Bool.and_eq_true] at h2
  obtain ⟨hA, hB⟩ := h2
  constructor
  · intro hlead
    rw [hlead] at hA
    simp only [Bool.true_and, Bool.not_eq_true', Bool.not_eq_false',
      beq_iff_eq] at hA
    exact hA
  · intro heq
    rw [heq] at hB
    simp only [beq_self_eq_true, Bool.not_true, Bool.false_or,
      Bool.not_eq_true'] at hB
    exact hB

theorem exp_false_conflict (all : List ZipEntry) (bp : Str)
    (hyp : hypOk all bp = true) (e : ZipEntry) (he : e ∈ all) (r : Str)
    (hr : stripPre bp e.name = some r) (q : List Str)
    (hfalse : (q, false) ∈ expectedSet all bp)
    (hlead : isLeadB q (comps r) = true) :
    q = comps r ∧ e.isDir = false := by
  obtain ⟨f, hf, hfd, rf, parf, fnf, hrf, hspf, hqeq⟩ :=
    expFalse all bp q hfalse
  have hokf := hypOk_entryOk all bp hyp f hf
  obtain ⟨_, hfile⟩ := entryOk_spec bp f hokf rf hrf
  obtain ⟨parf', fnf', hspf', hfn'⟩ := hfile hfd
  rw [hspf] at hspf'
  rw [Option.some.injEq, Prod.mk.injEq] at hspf'
  obtain ⟨rfl, rfl⟩ := hspf'
  have hqrf : q = comps rf := by
    rw [hqeq, comps_of_rsplit rf parf fnf hspf hfn']
  have hconf := noConflict_spec all bp
    (by rw [hypOk, Bool.and_eq_true] at hyp; exact hyp.2) f hf e he rf r hrf hfd hr
  rw [← hqrf] at hconf
  have heq := hconf.1 hlead
  exact ⟨heq, hconf.2 heq⟩

theorem exp_true_conflict (all : List ZipEntry) (bp : Str)
    (hyp : hypOk all bp = true) (e : ZipEntry) (he : e ∈ all) (r : Str)
    (hr : stripPre bp e.name = some r) (hfile : e.isDir = false)
    (htrue : (comps r, true) ∈ expectedSet all bp) : False := by
  obtain ⟨e2, he2, r2, hr2, hne, hcase⟩ := expTrue all bp (comps r) htrue
  have hconf := noConflict_spec all bp
    (by rw [hypOk, Bool.and_eq_true] at hyp; exact hyp.2) e he e2 he2 r r2 hr hfile hr2
  rcases hcase with ⟨hd2, hlead⟩ | ⟨hd2, par2, fn2, hsp2, hlead⟩
  · have heq := hconf.1 hlead
    rw [hconf.2 heq] at hd2
    exact absurd hd2 (by simp)
  · have hok2 := hypOk_entryOk all bp hyp e2 he2
    obtain ⟨_, hfile2⟩ := entryOk_spec bp e2 hok2 r2 hr2
    obtain ⟨par2', fn2', hsp2', hfn2⟩ := hfile2 hd2
    rw [hsp2] at hsp2'
    rw [Option.some.injEq, Prod.mk.injEq] at hsp2'
    obtain ⟨rfl, rfl⟩ := hsp2'
    have hcr2 : comps r2 = comps par2 ++ [fn2] :=
      comps_of_rsplit r2 par2 fn2 hsp2 hfn2
    have hlead2 : isLeadB (comps r) (comps r2) = true := by
      rw [hcr2]
      exact isLeadB_trans _ _ _ hlead (isLeadB_append_right _ _)
    have heq := hconf.1 hlead2
    have hlen1 := isLeadB_length _ _ hlead
    rw [heq, hcr2] at hlen1
    simp at hlen1

theorem mem_expectedOf_dir (bp : Str) (e : ZipEntry) (r : Str)
    (hr : stripPre bp e.name = some r) (hd : e.isDir = true)
    (p : List Str) (b : Bool) :
    (p, b) ∈ expectedOf bp e ↔ b = true ∧ p ≠ [] ∧ isLeadB p (comps r) = true := by
  simp only [expectedOf, hr, hd]
  rw [if_pos trivial, List.mem_map]
  constructor
  · rintro ⟨a, ha, heq⟩
    rw [Prod.mk.injEq] at heq
    obtain ⟨h1, h2⟩ := heq
    rw [h1] at ha
    obtain ⟨hne, hlead⟩ := (mem_nePres_iff_isLeadB p (comps r)).mp ha
    exact ⟨h2.symm, hne, hlead⟩
  · rintro ⟨rfl, hne, hlead⟩
    exact ⟨p, (mem_nePres_iff_isLeadB p (comps r)).mpr ⟨hne, hlead⟩, rfl⟩

theorem mem_expectedOf_file (bp : Str) (e : ZipEntry) (r par fn : Str)
    (hr : stripPre bp e.name = some r) (hd : e.isDir = false)
    (hsp : rsplitSlash r = some (par, fn)) (p : List Str) (b : Bool) :
    (p, b) ∈ expectedOf bp e ↔
      ((b = true ∧ p ≠ [] ∧ isLeadB p (comps par) = true) ∨
       (b = false ∧ p = comps par ++ [fn])) := by
  simp only [expectedOf, hr, hd, Bool.false_eq_true, if_false, hsp]
  rw [List.mem_append, List.mem_map, List.mem_singleton]
  constructor
  · rintro (⟨a, ha, heq⟩ | heq)
    · rw [Prod.mk.injEq] at heq
      obtain ⟨h1, h2⟩ := heq
      rw [h1] at ha
      obtain ⟨hne, hlead⟩ := (mem_nePres_iff_isLeadB p (comps par)).mp ha
      exact Or.inl ⟨h2.symm, hne, hlead⟩
    · rw [Prod.mk.injEq] at heq
      exact Or.inr ⟨heq.2, heq.1⟩
  · rintro (⟨rfl, hne, hlead⟩ | ⟨rfl, rfl⟩)
    · exact Or.inl ⟨p, (mem_nePres_iff_isLeadB p (comps par)).mpr ⟨hne, hlead⟩, rfl⟩
    · exact Or.inr rfl

theorem buildNodes_inv (bp : Str) (all : List ZipEntry)
    (hyp : hypOk all bp = true) :
    ∀ (rest done : List ZipEntry) (t : FsNode) (i : Nat),
    all = done ++ rest →
    wfNode t = true →
    kindAt t [] = some true →
    (∀ p b, p ≠ [] → ((p, b) ∈ nodePaths t ↔ (p, b) ∈ expectedSet done bp)) →
    ∃ t', buildNodes bp t i rest = .ok t' ∧ wfNode t' = true ∧
      kindAt t' [] = some true ∧
      (∀ p b, p ≠ [] → ((p, b) ∈ nodePaths t' ↔ (p, b) ∈ expectedSet all bp)) := by
  intro rest
  induction rest with
  | nil =>
    intro done t i hall hwf hroot hinv
    refine ⟨t, rfl, hwf, hroot, ?_⟩
    rw [hall, List.append_nil]
    exact hinv
  | cons e rest ih =>
    intro done t i hall hwf hroot hinv
    have he : e ∈ all := by rw [hall]; simp
    have hall' : all = (done ++ [e]) ++ rest := by rw [hall]; simp
    cases hr : stripPre bp e.name with
    | none =>
      have hskip : buildNodes bp t i (e :: rest) = buildNodes bp t (i + 1) rest := by
        simp only [buildNodes, hr]
      rw [hskip]
      have hofe : expectedOf bp e = [] := by simp [expectedOf, hr]
      have hinv' : ∀ p b, p ≠ [] →
          ((p, b) ∈ nodePaths t ↔ (p, b) ∈ expectedSet (done ++ [e]) bp) := by
        intro p b hp
        rw [expectedSet_append, hinv p b hp]
        simp [expectedSet, hofe]
      exact ih (done ++ [e]) t (i + 1) hall' hwf hroot hinv'
    | some r =>
      have hok := hypOk_entryOk all bp hyp e he
      obtain ⟨hdd, hfileOk⟩ := entryOk_spec bp e hok r hr
      cases hd : e.isDir with
      | true =>
        have hnofileExp : ∀ q, q ≠ [] → isLeadB q (comps r) = true →
            (q, false) ∉ expectedSet all bp := by
          intro q hq hlead hmem
          obtain ⟨_, hd'⟩ := exp_false_conflict all bp hyp e he r hr q hmem hlead
          rw [hd] at hd'
          exact absurd hd' (by simp)
        have hnofile : ∀ q, isLeadB q (comps r) = true →
            kindAt t q ≠ some false := by
          intro q hlead hkind
          by_cases hq : q = []
          · rw [hq] at hkind
            rw [hroot] at hkind
            simp at hkind
          · have hmem := (mem_nodePaths t q false hwf).mpr hkind
            have hmemExp := (hinv q false hq).mp hmem
            refine hnofileExp q hq hlead ?_
            rw [hall]
            exact expectedSet_sub done _ bp _ hmemExp
        obtain ⟨t', hok', hwf', hform⟩ :=
          updateAtPath_dir_effect (splitSlash r) t hwf
            (fun c hc => hdd c hc) (fun q hq => hnofile q hq)
        have hcf : (splitSlash r).filter (fun c => !c.isEmpty) = comps r := rfl
        rw [hcf] at hform
        have haddo : addDirectory t r = .ok t' := hok'
        have hstep : buildNodes bp t i (e :: rest) =
            buildNodes bp t' (i + 1) rest := by
          simp only [buildNodes, hr, hd, if_true, haddo]
        have hroot' : kindAt t' [] = some true := by
          rw [hform []]
          rw [if_pos (isLeadB_nil_left _)]
        have hinv' : ∀ p b, p ≠ [] →
            ((p, b) ∈ nodePaths t' ↔ (p, b) ∈ expectedSet (done ++ [e]) bp) := by
          intro p b hp
          rw [mem_nodePaths t' p b hwf', hform p, expectedSet_append,
            List.mem_append]
          have hsingle : ((p, b) ∈ expectedSet [e] bp) ↔ ((p, b) ∈ expectedOf bp e) := by
            simp [expectedSet]
          rw [hsingle, mem_expectedOf_dir bp e r hr hd p b]
          by_cases hlead : isLeadB p (comps r) = true
          · rw [if_pos hlead]
            constructor
            · intro hb
              rw [Option.some.injEq] at hb
              exact Or.inr ⟨hb.symm, hp, hlead⟩
            · rintro (hmem | ⟨hb, _, _⟩)
              · cases b with
                | true => rfl
                | false =>
                  exfalso
                  refine hnofileExp p hp hlead ?_
                  rw [hall]
                  exact expectedSet_sub done _ bp _ hmem
              · rw [hb]
          · rw [if_neg hlead]
            rw [← mem_nodePaths t p b hwf, hinv p b hp]
            constructor
            · exact Or.inl
            · rintro (hmem | ⟨_, _, hl⟩)
              · exact hmem
              · exact absurd hl hlead
        rw [hstep]
        exact ih (done ++ [e]) t' (i + 1) hall' hwf' hroot' hinv'
      | false =>
        obtain ⟨par, fn, hsp, hfn⟩ := hfileOk hd
        have hcr : comps r = comps par ++ [fn] := comps_of_rsplit r par fn hsp hfn
        have hfnr : fn ∈ comps r := by rw [hcr]; simp
        have hfndd : fn ≠ str ".." := hdd fn hfnr
        have hddp : ∀ c ∈ comps par, c ≠ str ".." := by
          intro c hc
          refine hdd c ?_
          rw [hcr]
          exact List.mem_append_left _ hc
        have hparlead : isLeadB (comps par) (comps r) = true := by
          rw [hcr]
          exact isLeadB_append_right _ _
        have hnofileExp : ∀ q, q ≠ [] → isLeadB q (comps par) = true →
            (q, false) ∉ expectedSet all bp := by
          intro q hq hlead hmem
          have hleadr : isLeadB q (comps r) = true :=
            isLeadB_trans _ _ _ hlead hparlead
          obtain ⟨heq, _⟩ := exp_false_conflict all bp hyp e he r hr q hmem hleadr
          have hlen := isLeadB_length _ _ hlead
          rw [heq, hcr] at hlen
          simp at hlen
        have hnodirExp : (comps r, true) ∉ expectedSet all bp := fun hmem =>
          exp_true_conflict all bp hyp e he r hr hd hmem
        have hnofile : ∀ q, isLeadB q (comps par) = true →
            kindAt t q ≠ some false := by
          intro q hlead hkind
          by_cases hq : q = []
          · rw [hq] at hkind
            rw [hroot] at hkind
            simp at hkind
          · have hmem := (mem_nodePaths t q false hwf).mpr hkind
            have hmemExp := (hinv q false hq).mp hmem
            refine hnofileExp q hq hlead ?_
            rw [hall]
            exact expectedSet_sub done _ bp _ hmemExp
        have hnodir : kindAt t (comps par ++ [fn]) ≠ some true := by
          intro hkind
          have hne : comps par ++ [fn] ≠ [] := by simp
          have hmem := (mem_nodePaths t _ true hwf).mpr hkind
          have hmemExp := (hinv _ true hne).mp hmem
          refine hnodirExp ?_
          rw [hcr, hall]
          exact expectedSet_sub done _ bp _ hmemExp
        obtain ⟨t', hok', hwf', hform⟩ :=
          updateAtPath_file_effect (splitSlash par) t fn i hwf
            (fun c hc => hddp c hc) (fun q hq => hnofile q hq) hnodir
        have hcf : (splitSlash par).filter (fun c => !c.isEmpty) = comps par := rfl
        rw [hcf] at hform
        have haddo : addFileTop t r (.file i) = .ok t' := by
          simp only [addFileTop, hsp]
          rw [if_neg hfndd]
          exact hok'
        have hstep : buildNodes bp t i (e :: rest) =
            buildNodes bp t' (i + 1) rest := by
          simp only [buildNodes, hr, hd, Bool.false_eq_true, if_false, haddo]
        have hroot' : kindAt t' [] = some true := by
          rw [hform []]
          rw [if_neg (by simp : ¬(([] : List Str) = comps par ++ [fn]))]
          rw [if_pos (isLeadB_nil_left _)]
        have hinv' : ∀ p b, p ≠ [] →
            ((p, b) ∈ nodePaths t' ↔ (p, b) ∈ expectedSet (done ++ [e]) bp) := by
          intro p b hp
          rw [mem_nodePaths t' p b hwf', hform p, expectedSet_append,
            List.mem_append]
          have hsingle : ((p, b) ∈ expectedSet [e] bp) ↔ ((p, b) ∈ expectedOf bp e) := by
            simp [expectedSet]
          rw [hsingle, mem_expectedOf_file bp e r par fn hr hd hsp p b]
          by_cases hpt : p = comps par ++ [fn]
          · rw [if_pos hpt]
            constructor
            · intro hb
              rw [Option.some.injEq] at hb
              exact Or.inr (Or.inr ⟨hb.symm, hpt⟩)
            · rintro (hmem | (⟨hb, _, hl⟩ | ⟨hb, _⟩))
              · cases b with
                | false => rfl
                | true =>
                  exfalso
                  refine hnodirExp ?_
                  rw [hcr, ← hpt, hall]
                  exact expectedSet_sub done _ bp _ hmem
              · exfalso
                have hlen := isLeadB_length _ _ hl
                rw [hpt] at hlen
                simp at hlen
              · rw [hb]
          · rw [if_neg hpt]
            by_cases hlead : isLeadB p (comps par) = true
            · rw [if_pos hlead]
              constructor
              · intro hb
                rw [Option.some.injEq] at hb
                exact Or.inr (Or.inl ⟨hb.symm, hp, hlead⟩)
              · rintro (hmem | (⟨hb, _, _⟩ | ⟨_, hpeq⟩))
                · cases b with
                  | true => rfl
                  | false =>
                    exfalso
                    refine hnofileExp p hp hlead ?_
                    rw [hall]
                    exact expectedSet_sub done _ bp _ hmem
                · rw [hb]
                · exact absurd hpeq hpt
            · rw [if_neg hlead]
              rw [← mem_nodePaths t p b hwf, hinv p b hp]
              constructor
              · exact Or.inl
              · rintro (hmem | (⟨_, _, hl⟩ | ⟨_, hpeq⟩))
                · exact hmem
                · exact absurd hl hlead
                · exact absurd hpeq hpt
        rw [hstep]
        exact ih (done ++ [e]) t' (i + 1) hall' hwf' hroot' hinv'

theorem expectedSet_no_dd (l : List ZipEntry) (bp : Str)
    (hok : ∀ e ∈ l, entryOk bp e = true) (p : List Str) (b : Bool)
    (h : (p, b) ∈ expectedSet l bp) : str ".." ∉ p := by
  intro hdd
  cases b with
  | false =>
    obtain ⟨f, hf, hfd, rf, parf, fnf, hrf, hspf, hpeq⟩ := expFalse l bp p h
    obtain ⟨hnodd, hfile⟩ := entryOk_spec bp f (hok f hf) rf hrf
    obtain ⟨parf', fnf', hspf', hfn'⟩ := hfile hfd
    rw [hspf] at hspf'
    rw [Option.some.injEq, Prod.mk.injEq] at hspf'
    obtain ⟨rfl, rfl⟩ := hspf'
    have hprf : p = comps rf := by
      rw [hpeq, comps_of_rsplit rf parf fnf hspf hfn']
    rw [hprf] at hdd
    exact hnodd _ hdd rfl
  | true =>
    obtain ⟨f, hf, rf, hrf, hne, hcase⟩ := expTrue l bp p h
    obtain ⟨hnodd, hfile⟩ := entryOk_spec bp f (hok f hf) rf hrf
    rcases hcase with ⟨_, hlead⟩ | ⟨hfd, parf, fnf, hspf, hlead⟩
    · exact hnodd _ (mem_of_isLeadB p (comps rf) hlead _ hdd) rfl
    · obtain ⟨parf', fnf', hspf', hfn'⟩ := hfile hfd
      rw [hspf] at hspf'
      rw [Option.some.injEq, Prod.mk.injEq] at hspf'
      obtain ⟨rfl, rfl⟩ := hspf'
      have hcr : comps rf = comps parf ++ [fnf] :=
        comps_of_rsplit rf parf fnf hspf hfn'
      have hmm : str ".." ∈ comps rf := by
        rw [hcr]
        exact List.mem_append_left _ (mem_of_isLeadB p (comps parf) hlead _ hdd)
      exact hnodd _ hmm rfl

/-- C1 (amended): for a conflict-free archive — no entry's relative
component path strictly extends a file entry's path, no relative path is
shared by a file entry and a directory entry, every file entry's
remainder has a slash and a nonempty final component, and no component
is `..` — `into_fs_node` succeeds, and the traversal of the resulting
tree enumerates exactly the entries whose names begin with the
`bundle_path` string, each placed at the component path of its
remainder, together with their synthesized ancestor directories; no `..`
component appears in the tree. -/
theorem c1_enumeration_amended (entries : List ZipEntry) (bundlePath : Str)
    (hyp : hypOk entries bundlePath = true) :
    ∃ t, intoFsNode entries bundlePath = .ok t ∧
      (∀ p b, p ≠ [] →
        (((p, b) ∈ nodePaths t) ↔ (p, b) ∈ expectedSet entries bundlePath)) ∧
      (∀ p b, (p, b) ∈ nodePaths t → str ".." ∉ p) := by
  obtain ⟨t, hok, hwf, hroot, hinv⟩ :=
    buildNodes_inv bundlePath entries hyp entries [] (.dir []) 0 rfl
      (by decide) rfl
      (by
        intro p b hp
        constructor
        · intro hmem
          exfalso
          have hnp : nodePaths (FsNode.dir []) = [([], true)] := by decide
          rw [hnp, List.mem_singleton, Prod.mk.injEq] at hmem
          exact hp hmem.1
        · intro hmem
          simp [expectedSet] at hmem)
  refine ⟨t, hok, hinv, fun p b hmem => ?_⟩
  by_cases hp : p = []
  · subst hp; simp
  · exact expectedSet_no_dd entries bundlePath
      (fun e he => hypOk_entryOk entries bundlePath hyp e he) p b
      ((hinv p b hp).mp hmem)

/-- C1: the claim as stated is false. In the archive
`[Payload/Foo.app/sub/x (file), Payload/Foo.app/a/b (file),
Payload/Foo.app/a (file)]`, the entry `Payload/Foo.app/a/b` lies under
the bundle directory, but the later file entry `Payload/Foo.app/a`
replaces the intermediate directory `a`, so the built tree's traversal
does not contain the path `a/b`. -/
theorem c1_enumeration_counterexample : ¬ C1Claim := by
  intro h
  have hc := (h [⟨str "Payload/Foo.app/sub/x", false⟩,
      ⟨str "Payload/Foo.app/a/b", false⟩,
      ⟨str "Payload/Foo.app/a", false⟩]
      (str "Payload/Foo.app")
      (.dir [(str "sub", .dir [(str "x", .file 0)]), (str "a", .file 2)])
      (by rfl) (by rfl)).1 [str "a", str "b"] false (by simp)
  have hmem := hc.mpr (by decide)
  have hout : ¬ (([str "a", str "b"], false) ∈ nodePaths
      (FsNode.dir [(str "sub", .dir [(str "x", .file 0)]),
        (str "a", .file 2)])) := by decide
  exact hout hmem

/-- Witness for the amended claim C1, at the concrete archive of the
spec's first scenario (with an explicit directory entry). -/
theorem c1_enumeration_amended_witness :
    hypOk [⟨str "Payload/Foo.app/Info.plist", false⟩,
      ⟨str "Payload/Foo.app/sub/", true⟩,
      ⟨str "Payload/Foo.app/sub/x.bin", false⟩] (str "Payload/Foo.app") = true ∧
    (∃ t, intoFsNode [⟨str "Payload/Foo.app/Info.plist", false⟩,
        ⟨str "Payload/Foo.app/sub/", true⟩,
        ⟨str "Payload/Foo.app/sub/x.bin", false⟩] (str "Payload/Foo.app") = .ok t ∧
      (∀ p b, p ≠ [] →
        (((p, b) ∈ nodePaths t) ↔ (p, b) ∈ expectedSet
          [⟨str "Payload/Foo.app/Info.plist", false⟩,
           ⟨str "Payload/Foo.app/sub/", true⟩,
           ⟨str "Payload/Foo.app/sub/x.bin", false⟩] (str "Payload/Foo.app"))) ∧
      (∀ p b, (p, b) ∈ nodePaths t → str ".." ∉ p)) :=
  ⟨by decide, c1_enumeration_amended _ _ (by decide)⟩

/-! ## Claim C9: add_file replacement and panic conditions -/

theorem nodeAt_cons_lookup (ch : List (Str × FsNode)) (c : Str) (p : List Str)
    (child : FsNode) (h : lookupChild ch c = some child) :
    nodeAt (.dir ch) (c :: p) = nodeAt child p := by
  simp [nodeAt, h]

theorem nodeAt_nil (t : FsNode) : nodeAt t [] = some t := by
  cases t <;> rfl

theorem nodeAt_emptyDir (q : List Str) (h : q ≠ []) :
    nodeAt (FsNode.dir []) q = none := by
  cases q with
  | nil => simp at h
  | cons c rest => simp [nodeAt, lookupChild]

theorem nodeAt_append (t : FsNode) (p q : List Str) :
    nodeAt t (p ++ q) = (nodeAt t p).bind (fun n => nodeAt n q) := by
  induction p generalizing t with
  | nil => simp [nodeAt]
  | cons c p ih =>
    cases t with
    | file j => simp [nodeAt]
    | dir ch =>
      cases hlk : lookupChild ch c with
      | none => simp [nodeAt, hlk]
      | some child => simp [nodeAt, hlk, ih]

theorem updateAtPath_reaches (parts : List Str) (t : FsNode)
    (k : FsNode → Except BuildErr FsNode) (t' : FsNode)
    (h : updateAtPath t parts k = .ok t') :
    ∃ m m', k m = .ok m' ∧
      nodeAt t' (parts.filter (fun c => !c.isEmpty)) = some m' := by
  induction parts generalizing t t' with
  | nil => exact ⟨t, t', h, by simp [nodeAt]⟩
  | cons c rest ih =>
    by_cases hce : c.isEmpty
    · rw [show updateAtPath t (c :: rest) k = updateAtPath t rest k by
        simp only [updateAtPath]
        rw [if_pos hce]] at h
      have hfe : (c :: rest).filter (fun c => !c.isEmpty) =
          rest.filter (fun c => !c.isEmpty) := by
        simp [List.filter_cons, hce]
      rw [hfe]
      exact ih t t' h
    · by_cases hcd : c = str ".."
      · rw [show updateAtPath t (c :: rest) k = .error .dotdot by
          simp only [updateAtPath]
          rw [if_neg hce, if_pos hcd]] at h
        simp at h
      · cases t with
        | file j =>
          rw [show updateAtPath (FsNode.file j) (c :: rest) k =
              .error .expectedDir by
            simp only [updateAtPath]
            rw [if_neg hce, if_neg hcd]] at h
          simp at h
        | dir ch =>
          have hu : updateAtPath (FsNode.dir ch) (c :: rest) k =
              match updateAtPath ((lookupChild ch c).getD (FsNode.dir [])) rest k with
              | .ok c0 => .ok (.dir (insertChild ch c c0))
              | .error e => .error e := by
            simp only [updateAtPath]
            rw [if_neg hce, if_neg hcd]
          rw [hu] at h
          cases hrec : updateAtPath ((lookupChild ch c).getD (FsNode.dir [])) rest k with
          | error e => rw [hrec] at h; simp at h
          | ok t'' =>
            rw [hrec] at h
            simp only [Except.ok.injEq] at h
            subst h
            obtain ⟨m, m', hk, hat⟩ := ih _ _ hrec
            have hfe : (c :: rest).filter (fun c => !c.isEmpty) =
                c :: rest.filter (fun c => !c.isEmpty) := by
              simp [List.filter_cons, hce]
            rw [hfe]
            refine ⟨m, m', hk, ?_⟩
            rw [nodeAt_cons_lookup _ c _ t'' (lookupChild_insertChild_self ch c t'')]
            exact hat

theorem updateAtPath_expectedDir (parts : List Str) (ch : List (Str × FsNode))
    (k : FsNode → Except BuildErr FsNode)
    (hk : ∀ chd, ∃ m', k (.dir chd) = .ok m')
    (h : updateAtPath (.dir ch) parts k = .error .expectedDir) :
    ∃ q, q ≠ [] ∧ isLeadB q (parts.filter (fun c => !c.isEmpty)) = true ∧
      ∃ j, nodeAt (.dir ch) q = some (.file j) := by
  induction parts generalizing ch with
  | nil =>
    obtain ⟨m', hm'⟩ := hk ch
    rw [show updateAtPath (FsNode.dir ch) [] k = k (.dir ch) from rfl, hm'] at h
    simp at h
  | cons c rest ih =>
    by_cases hce : c.isEmpty
    · rw [show updateAtPath (FsNode.dir ch) (c :: rest) k =
          updateAtPath (FsNode.dir ch) rest k by
        simp only [updateAtPath]
        rw [if_pos hce]] at h
      have hfe : (c :: rest).filter (fun c => !c.isEmpty) =
          rest.filter (fun c => !c.isEmpty) := by
        simp [List.filter_cons, hce]
      rw [hfe]
      exact ih ch h
    · by_cases hcd : c = str ".."
      · rw [show updateAtPath (FsNode.dir ch) (c :: rest) k = .error .dotdot by
          simp only [updateAtPath]
          rw [if_neg hce, if_pos hcd]] at h
        simp at h
      · have hfe : (c :: rest).filter (fun c => !c.isEmpty) =
            c :: rest.filter (fun c => !c.isEmpty) := by
          simp [List.filter_cons, hce]
        rw [hfe]
        have hu : updateAtPath (FsNode.dir ch) (c :: rest) k =
            match updateAtPath ((lookupChild ch c).getD (FsNode.dir [])) rest k with
            | .ok c0 => .ok (.dir (insertChild ch c c0))
            | .error e => .error e := by
          simp only [updateAtPath]
          rw [if_neg hce, if_neg hcd]
        rw [hu] at h
        cases hrec : updateAtPath ((lookupChild ch c).getD (FsNode.dir [])) rest k with
        | ok t'' => rw [hrec] at h; simp at h
        | error e =>
          rw [hrec] at h
          simp only [Except.error.injEq] at h
          subst h
          cases hlk : lookupChild ch c with
          | none =>
            rw [hlk, Option.getD_none] at hrec
            obtain ⟨q', hq', _, j, hat⟩ := ih [] hrec
            rw [nodeAt_emptyDir q' hq'] at hat
            simp at hat
          | some child =>
            rw [hlk, Option.getD_some] at hrec
            cases child with
            | file j =>
              refine ⟨[c], by simp, by simp [isLeadB, isLeadB_nil_left], j, ?_⟩
              rw [nodeAt_cons_lookup ch c [] _ hlk]
              rfl
            | dir chd =>
              obtain ⟨q', hq', hlead', j, hat⟩ := ih chd hrec
              refine ⟨c :: q', by simp, by simp [isLeadB, hlead'], j, ?_⟩
              rw [nodeAt_cons_lookup ch c q' _ hlk]
              exact hat

/-- C9: when `add_file` succeeds, the inserted node sits at the path's
parent components followed by the file name, silently replacing any
existing child (file or directory) of that name; the
`expected directory` programmer-error panic arises only when some
nonempty leading portion of the parent path resolves to an existing
file. -/
theorem c9_add_file_replacement :
    (∀ (t : FsNode) (path : Str) (leaf : FsNode) (t' : FsNode),
      addFileTop t path leaf = .ok t' →
      ∃ parent fileName, rsplitSlash path = some (parent, fileName) ∧
        nodeAt t' (comps parent ++ [fileName]) = some leaf) ∧
    (∀ (ch : List (Str × FsNode)) (path : Str) (leaf : FsNode),
      addFileTop (.dir ch) path leaf = .error .expectedDir →
      ∃ parent fileName, rsplitSlash path = some (parent, fileName) ∧
        ∃ q, q ≠ [] ∧ isLeadB q (comps parent) = true ∧
          ∃ j, nodeAt (.dir ch) q = some (.file j)) := by
  constructor
  · intro t path leaf t' h
    cases hsp : rsplitSlash path with
    | none => simp only [addFileTop, hsp] at h; simp at h
    | some pf =>
      obtain ⟨parent, fileName⟩ := pf
      simp only [addFileTop, hsp] at h
      by_cases hfd : fileName = str ".."
      · rw [if_pos hfd] at h; simp at h
      · rw [if_neg hfd] at h
        obtain ⟨m, m', hk, hat⟩ := updateAtPath_reaches _ t _ t' h
        cases m with
        | file j => simp at hk
        | dir mch =>
          simp only [Except.ok.injEq] at hk
          refine ⟨parent, fileName, rfl, ?_⟩
          have hat' : nodeAt t' (comps parent) = some m' := hat
          rw [nodeAt_append, hat', Option.some_bind, ← hk]
          rw [nodeAt_cons_lookup _ fileName [] leaf
            (lookupChild_insertChild_self mch fileName leaf)]
          exact nodeAt_nil leaf
  · intro ch path leaf h
    cases hsp : rsplitSlash path with
    | none => simp only [addFileTop, hsp] at h; simp at h
    | some pf =>
      obtain ⟨parent, fileName⟩ := pf
      simp only [addFileTop, hsp] at h
      by_cases hfd : fileName = str ".."
      · rw [if_pos hfd] at h; simp at h
      · rw [if_neg hfd] at h
        obtain ⟨q, hq, hlead, j, hat⟩ := updateAtPath_expectedDir _ ch _
          (fun chd => ⟨.dir (insertChild chd fileName leaf), rfl⟩) h
        exact ⟨parent, fileName, rfl, q, hq, hlead, j, hat⟩

/-- Witness for claim C9: adding a file at `/a` over a tree in which `a`
is an existing directory (with content) succeeds and replaces the
directory with the file. -/
theorem c9_add_file_replacement_witness :
    addFileTop (.dir [(str "a", .dir [(str "x", .file 0)])]) (str "/a")
      (.file 7) = .ok (.dir [(str "a", .file 7)]) ∧
    ∃ parent fileName, rsplitSlash (str "/a") = some (parent, fileName) ∧
      nodeAt (.dir [(str "a", .file 7)]) (comps parent ++ [fileName]) =
        some (.file 7) :=
  ⟨by rfl, c9_add_file_replacement.1 (.dir [(str "a", .dir [(str "x", .file 0)])])
    (str "/a") (.file 7) (.dir [(str "a", .file 7)]) (by rfl)⟩

/-! ## Claims C7/C8: the POSIX FD table and open flags -/

theorem firstNoneIdx_some_spec (st : List (Option Nat)) (i : Nat)
    (h : firstNoneIdx st = some i) :
    st[i]? = some none ∧ ∀ j, j < i → st[j]? ≠ some none := by
  induction st generalizing i with
  | nil => simp [firstNoneIdx] at h
  | cons a rest ih =>
    cases a with
    | none =>
      simp only [firstNoneIdx, Option.some.injEq] at h
      subst h
      exact ⟨by simp, fun j hj => absurd hj (by omega)⟩
    | some v =>
      simp only [firstNoneIdx, Option.map_eq_some'] at h
      obtain ⟨i', hi', rfl⟩ := h
      obtain ⟨h1, h2⟩ := ih i' hi'
      refine ⟨by simpa using h1, fun j hj => ?_⟩
      cases j with
      | zero => simp
      | succ j' =>
        simp only [List.getElem?_cons_succ]
        exact h2 j' (by omega)

theorem firstNoneIdx_none_spec (st : List (Option Nat))
    (h : firstNoneIdx st = none) :
    ∀ j, j < st.length → st[j]? ≠ some none := by
  induction st with
  | nil => intro j hj; simp at hj
  | cons a rest ih =>
    cases a with
    | none => simp [firstNoneIdx] at h
    | some v =>
      simp only [firstNoneIdx, Option.map_eq_none'] at h
      intro j hj
      cases j with
      | zero => simp
      | succ j' =>
        simp only [List.getElem?_cons_succ]
        exact ih h j' (by simpa using hj)

theorem firstNoneIdx_eq_some (st : List (Option Nat)) (i : Nat)
    (hmem : st[i]? = some none) (hlow : ∀ j, j < i → st[j]? ≠ some none) :
    firstNoneIdx st = some i := by
  induction st generalizing i with
  | nil => simp at hmem
  | cons a rest ih =>
    cases i with
    | zero =>
      simp only [List.getElem?_cons_zero, Option.some.injEq] at hmem
      subst hmem
      rfl
    | succ i' =>
      have h0 := hlow 0 (by omega)
      cases a with
      | none => simp at h0
      | some v =>
        simp only [firstNoneIdx]
        rw [ih i' (by simpa using hmem) (fun j hj => by
          have hj1 := hlow (j + 1) (by omega)
          simpa using hj1)]
        rfl

theorem openCall_cases (st : List (Option Nat)) (flags : Nat)
    (fsOpen : GuestOpenOptions → Option Nat) (st' : List (Option Nat)) (fd : Int)
    (h : openCall st flags fsOpen = .ok (st', fd)) :
    (st' = st ∧ fd = -1) ∨
    (∃ (i obj : Nat), fd = (i : Int) + 3 ∧ i + 3 ≤ 2 ^ 31 - 1 ∧
      (∀ j, j < i → st[j]? ≠ some none) ∧
      ((st[i]? = some none ∧ st' = st.set i (some obj)) ∨
       (i = st.length ∧ (∀ j, j < st.length → st[j]? ≠ some none) ∧
         st' = st ++ [some obj]))) := by
  cases hopt : optionsForFlags flags with
  | error e =>
    simp only [openCall, hopt] at h
    exact absurd h (by simp)
  | ok opts =>
    simp only [openCall, hopt] at h
    cases hf : fsOpen opts with
    | none =>
      simp only [hf, Except.ok.injEq, Prod.mk.injEq] at h
      exact Or.inl ⟨h.1.symm, h.2.symm⟩
    | some obj =>
      simp only [hf] at h
      cases hidx : firstNoneIdx st with
      | some i =>
        simp only [hidx] at h
        cases hfd : file_idx_to_fd i with
        | error e =>
          simp only [hfd] at h
          exact absurd h (by simp)
        | ok fdv =>
          simp only [hfd, Except.ok.injEq, Prod.mk.injEq] at h
          obtain ⟨h1, h2⟩ := h
          rw [file_idx_to_fd] at hfd
          by_cases hb : i ≤ 2 ^ 31 - 1 ∧ i + 3 ≤ 2 ^ 31 - 1
          · rw [if_pos hb] at hfd
            simp only [Except.ok.injEq] at hfd
            obtain ⟨hm, hl⟩ := firstNoneIdx_some_spec st i hidx
            exact Or.inr ⟨i, obj, by rw [← h2, ← hfd], hb.2, hl,
              Or.inl ⟨hm, h1.symm⟩⟩
          · rw [if_neg hb] at hfd
            simp at hfd
      | none =>
        simp only [hidx] at h
        cases hfd : file_idx_to_fd st.length with
        | error e =>
          simp only [hfd] at h
          exact absurd h (by simp)
        | ok fdv =>
          simp only [hfd, Except.ok.injEq, Prod.mk.injEq] at h
          obtain ⟨h1, h2⟩ := h
          rw [file_idx_to_fd] at hfd
          by_cases hb : st.length ≤ 2 ^ 31 - 1 ∧ st.length + 3 ≤ 2 ^ 31 - 1
          · rw [if_pos hb] at hfd
            simp only [Except.ok.injEq] at hfd
            have hall := firstNoneIdx_none_spec st hidx
            exact Or.inr ⟨st.length, obj, by rw [← h2, ← hfd], hb.2,
              fun j hj => hall j hj, Or.inr ⟨rfl, hall, h1.symm⟩⟩
          · rw [if_neg hb] at hfd
            simp at hfd

/-- C7: every successful `open` returns `slot_index + 3` where
`slot_index` is the lowest-indexed empty slot of the FD table (a new
slot is appended only when no slot is empty), hence the FD is at least
3; and after `open; open; close(fd1); open` the third `open` returns
`fd1` again. -/
theorem c7_fd_reuse :
    (∀ (st : List (Option Nat)) (flags : Nat)
       (fsOpen : GuestOpenOptions → Option Nat)
       (st' : List (Option Nat)) (fd : Int),
      openCall st flags fsOpen = .ok (st', fd) → fd ≠ -1 →
      3 ≤ fd ∧ ∃ (i obj : Nat), fd = (i : Int) + 3 ∧
        (∀ j, j < i → st[j]? ≠ some none) ∧
        ((st[i]? = some none ∧ st' = st.set i (some obj)) ∨
         (i = st.length ∧ (∀ j, j < st.length → st[j]? ≠ some none) ∧
           st' = st ++ [some obj]))) ∧
    (∀ (st0 s1 s2 s3 s4 : List (Option Nat)) (fl1 fl2 fl3 : Nat)
       (f1 f2 f3 : GuestOpenOptions → Option Nat) (fd1 fd2 fd3 : Int),
      openCall st0 fl1 f1 = .ok (s1, fd1) → fd1 ≠ -1 →
      openCall s1 fl2 f2 = .ok (s2, fd2) →
      closeSlot s2 fd1 = .ok s3 →
      openCall s3 fl3 f3 = .ok (s4, fd3) → fd3 ≠ -1 →
      fd3 = fd1) := by
  constructor
  · intro st flags fsOpen st' fd h hne
    rcases openCall_cases st flags fsOpen st' fd h with ⟨_, hfd⟩ |
      ⟨i, obj, hfd, _, hlow, hcase⟩
    · exact absurd hfd hne
    · exact ⟨by omega, i, obj, hfd, hlow, hcase⟩
  · intro st0 s1 s2 s3 s4 fl1 fl2 fl3 f1 f2 f3 fd1 fd2 fd3 ho1 hne1 ho2 hcl ho3 hne3
    rcases openCall_cases _ _ _ _ _ ho1 with ⟨_, hfd1⟩ |
      ⟨i1, obj1, hfd1, hb1, hlow1, hcase1⟩
    · exact absurd hfd1 hne1
    rcases openCall_cases _ _ _ _ _ ho3 with ⟨_, hfd3⟩ |
      ⟨i3, obj3, hfd3, hb3, hlow3, hcase3⟩
    · exact absurd hfd3 hne3
    have hidx1 : fd_to_file_idx fd1 = .ok i1 := by
      rw [fd_to_file_idx]
      rw [if_neg (by omega)]
      have he1 : fd1 - 3 = (i1 : Int) := by omega
      rw [he1, Int.emod_eq_of_lt (by positivity) (by omega)]
      simp
    simp only [closeSlot, hidx1] at hcl
    cases hs2i : s2[i1]? with
    | none =>
      rw [hs2i] at hcl
      exact absurd hcl (by simp)
    | some o =>
      cases o with
      | none =>
        rw [hs2i] at hcl
        exact absurd hcl (by simp)
      | some v =>
        rw [hs2i] at hcl
        simp only [Except.ok.injEq] at hcl
        have hi1s2 : i1 < s2.length := by
          by_contra hc
          rw [List.getElem?_eq_none (by omega)] at hs2i
          simp at hs2i
        have hs3i : s3[i1]? = some none := by
          rw [← hcl]
          exact List.getElem?_set_self hi1s2
        have hs1facts : (∀ j, j < i1 → s1[j]? ≠ some none) ∧ i1 < s1.length := by
          rcases hcase1 with ⟨hm, rfl⟩ | ⟨hlen, hfull, rfl⟩
          · constructor
            · intro j hj
              rw [List.getElem?_set_ne (by omega)]
              exact hlow1 j hj
            · rw [List.length_set]
              by_contra hc
              rw [List.getElem?_eq_none (by omega)] at hm
              simp at hm
          · constructor
            · intro j hj
              rw [List.getElem?_append_left (by omega)]
              exact hfull j (by omega)
            · rw [List.length_append, hlen]
              simp
        have hs3low : ∀ j, j < i1 → s3[j]? ≠ some none := by
          intro j hj
          rw [← hcl, List.getElem?_set_ne (by omega)]
          rcases openCall_cases _ _ _ _ _ ho2 with ⟨rfl, _⟩ |
            ⟨i2, obj2, _, _, hlow2, hcase2⟩
          · exact hs1facts.1 j hj
          · rcases hcase2 with ⟨hm2, rfl⟩ | ⟨hlen2, _, rfl⟩
            · have hne2 : i2 ≠ j := by
                intro heq
                exact hs1facts.1 j hj (heq ▸ hm2)
              rw [List.getElem?_set_ne hne2]
              exact hs1facts.1 j hj
            · rw [List.getElem?_append_left (by omega)]
              exact hs1facts.1 j hj
        have hi3 : i3 = i1 := by
          have hle : i3 ≤ i1 := by
            by_contra hc
            exact hlow3 i1 (by omega) hs3i
          rcases hcase3 with ⟨hm3, _⟩ | ⟨hlen3, _, _⟩
          · by_contra hc
            exact hs3low i3 (by omega) hm3
          · by_contra hc
            have hnone : s3[i1]? = none := List.getElem?_eq_none (by omega)
            rw [hnone] at hs3i
            simp at hs3i
        omega

/-- Witness for claim C7: with FD table `[some 9]`, the opens return
FDs 4, 5, and after closing 4 the third open returns 4 again. -/
theorem c7_fd_reuse_witness :
    openCall [some 9] 0 (fun _ => some 1) = .ok ([some 9, some 1], 4) ∧
    (4 : Int) = 4 :=
  ⟨by rfl, c7_fd_reuse.2 [some 9] [some 9, some 1] [some 9, some 1, some 2]
    [some 9, none, some 2] [some 9, some 3, some 2] 0 0 0
    (fun _ => some 1) (fun _ => some 2) (fun _ => some 3) 4 5 4
    (by rfl) (by decide) (by rfl) (by rfl) (by rfl) (by decide)⟩

/-- C8: the claim as stated is false. The flags value `3`
(`O_WRONLY | O_RDWR`, i.e. both access-mode bits) contains no bit
outside the known set and has neither `O_NOFOLLOW` nor `O_EXCL` set,
yet `open` hits the `panic!()` arm of the access-mode `match` instead
of building options. -/
theorem c8_open_flags_counterexample : ¬ C8Claim := by
  intro h
  obtain ⟨opts, hopts, _⟩ := h 3 (by decide) (by decide) (by decide) (by decide)
  rw [show optionsForFlags 3 = .error () from rfl] at hopts
  exact absurd hopts (by simp)

/-- C8 (amended): `open` is fatal when the flags contain a bit outside
the known set, or have `O_NOFOLLOW` or `O_EXCL` set, or have both
access-mode bits set (`flags & O_ACCMODE == 3`); otherwise it maps the
access mode to the read/write options, adds append/create/truncate for
`O_APPEND`/`O_CREAT`/`O_TRUNC`, ignores `O_NONBLOCK`, and returns `-1`
with the FD table unchanged when the filesystem open fails. -/
theorem c8_open_flags_amended (flags : Nat) :
    ((flags &&& unknownFlagsMask ≠ 0 ∨ flags &&& O_NOFOLLOW ≠ 0 ∨
      flags &&& O_EXCL ≠ 0 ∨ flags &&& O_ACCMODE = 3) →
      optionsForFlags flags = .error ()) ∧
    (flags &&& unknownFlagsMask = 0 → flags &&& O_NOFOLLOW = 0 →
     flags &&& O_EXCL = 0 → flags &&& O_ACCMODE ≠ 3 →
     ∃ opts, optionsForFlags flags = .ok opts ∧
       opts = ⟨(flags &&& O_ACCMODE == O_RDONLY) || (flags &&& O_ACCMODE == O_RDWR),
               (flags &&& O_ACCMODE == O_WRONLY) || (flags &&& O_ACCMODE == O_RDWR),
               flags &&& O_APPEND != 0, flags &&& O_CREAT != 0,
               flags &&& O_TRUNC != 0⟩ ∧
       (∀ st fsOpen, fsOpen opts = none →
         openCall st flags fsOpen = .ok (st, -1))) := by
  constructor
  · intro hbad
    rw [optionsForFlags]
    by_cases h1 : flags &&& unknownFlagsMask ≠ 0
    · rw [if_pos h1]
    · rw [if_neg h1]
      by_cases h2 : flags &&& O_NOFOLLOW ≠ 0
      · rw [if_pos h2]
      · rw [if_neg h2]
        by_cases h3 : flags &&& O_EXCL ≠ 0
        · rw [if_pos h3]
        · rw [if_neg h3]
          have hacc : flags &&& O_ACCMODE = 3 := by
            rcases hbad with hb | hb | hb | hb
            · exact absurd hb h1
            · exact absurd hb h2
            · exact absurd hb h3
            · exact hb
          rw [if_neg (by rw [hacc]; decide), if_neg (by rw [hacc]; decide),
            if_neg (by rw [hacc]; decide)]
          rfl
  · intro h1 h2 h3 h4
    have hopt : optionsForFlags flags = .ok
        ⟨(flags &&& O_ACCMODE == O_RDONLY) || (flags &&& O_ACCMODE == O_RDWR),
         (flags &&& O_ACCMODE == O_WRONLY) || (flags &&& O_ACCMODE == O_RDWR),
         flags &&& O_APPEND != 0, flags &&& O_CREAT != 0,
         flags &&& O_TRUNC != 0⟩ := by
      rw [optionsForFlags, if_neg (by simp [h1]), if_neg (by simp [h2]),
        if_neg (by simp [h3])]
      have hle : flags &&& O_ACCMODE ≤ 3 := Nat.and_le_right
      have hacc : flags &&& O_ACCMODE = 0 ∨ flags &&& O_ACCMODE = 1 ∨
          flags &&& O_ACCMODE = 2 := by omega
      rcases hacc with ha | ha | ha <;>
        rw [ha] <;>
        by_cases hA : flags &&& O_APPEND ≠ 0 <;>
          by_cases hC : flags &&& O_CREAT ≠ 0 <;>
            by_cases hT : flags &&& O_TRUNC ≠ 0 <;>
              simp_all [O_RDONLY, O_WRONLY, O_RDWR, Except.map, bne_iff_ne]
    exact ⟨_, hopt, rfl, fun st fsOpen hf => by
      simp only [openCall, hopt, hf]⟩

/-- Witness for the amended claim C8, at flags
`O_WRONLY | O_APPEND | O_CREAT` (`0x20a`). -/
theorem c8_open_flags_amended_witness :
    ∃ opts, optionsForFlags 0x20a = .ok opts ∧
      opts = ⟨(0x20a &&& O_ACCMODE == O_RDONLY) || (0x20a &&& O_ACCMODE == O_RDWR),
              (0x20a &&& O_ACCMODE == O_WRONLY) || (0x20a &&& O_ACCMODE == O_RDWR),
              0x20a &&& O_APPEND != 0, 0x20a &&& O_CREAT != 0,
              0x20a &&& O_TRUNC != 0⟩ ∧
      (∀ st fsOpen, fsOpen opts = none →
        openCall st 0x20a fsOpen = .ok (st, -1)) :=
  (c8_open_flags_amended 0x20a).2 (by decide) (by decide) (by decide) (by decide)

/-! ## Mach-O loader: segment loading (C2) -/

/-- C2: during `load_from_bytes`, a `Segment` command whose name is
neither `__PAGEZERO` nor `__LINKEDIT` is loaded: `reserve(vmaddr,
vmsize)` is called, and when `filesize > 0` the loader requires
`filesize ≤ vmsize` and copies `bytes[fileoff .. fileoff+filesize]` into
guest memory at `vmaddr` (no copy when `filesize = 0`); a `__PAGEZERO`
segment must satisfy `vmaddr = 0`, `vmsize = NULL_PAGE_SIZE`,
`filesize = 0` and is not loaded; a `__LINKEDIT` segment is not
loaded. -/
theorem c2_segment_loading (oracle : LoaderOracle) (nullPageSize : Nat)
    (bytes : List Nat) (st : LoadState) (segname : Str)
    (vmaddr vmsize fileoff filesize : Nat) (sections : List SectionDesc)
    (st' : LoadState)
    (h : processCommand oracle nullPageSize bytes st
      (.segment segname vmaddr vmsize fileoff filesize sections) = .ok st') :
    (segname ≠ str "__PAGEZERO" → segname ≠ str "__LINKEDIT" →
      st'.reserves = st.reserves ++ [(vmaddr, vmsize)] ∧
      (0 < filesize →
        filesize ≤ vmsize ∧ fileoff + filesize ≤ bytes.length ∧
        st'.writes = st.writes ++ [(vmaddr, (bytes.drop fileoff).take filesize)]) ∧
      (filesize = 0 → st'.writes = st.writes)) ∧
    (segname = str "__PAGEZERO" →
      vmaddr = 0 ∧ vmsize = nullPageSize ∧ filesize = 0 ∧
      st'.reserves = st.reserves ∧ st'.writes = st.writes) ∧
    (segname = str "__LINKEDIT" →
      st'.reserves = st.reserves ∧ st'.writes = st.writes) := by
  simp only [processCommand] at h
  split at h
  · split at h
    next hle =>
      simp only [Except.ok.injEq] at h
      subst h
      exact ⟨fun _ hnl => absurd hle hnl,
        fun hp => absurd (hp.symm.trans hle) (by decide),
        fun _ => ⟨rfl, rfl⟩⟩
    next hle =>
      split at h
      next hpz =>
        split at h
        next hc =>
          simp only [Except.ok.injEq] at h
          subst h
          exact ⟨fun hnp _ => absurd hpz hnp,
            fun _ => ⟨hc.1, hc.2.1, hc.2.2, rfl, rfl⟩,
            fun hl => absurd hl hle⟩
        next => exact absurd h (by simp)
      next hpz =>
        split at h
        next hf0 =>
          simp only [Except.ok.injEq] at h
          subst h
          exact ⟨fun _ _ => ⟨rfl, fun hpos => absurd hf0 (by omega), fun _ => rfl⟩,
            fun hp => absurd hp hpz, fun hl => absurd hl hle⟩
        next hf0 =>
          split at h
          next hfv =>
            split at h
            next hbd =>
              simp only [Except.ok.injEq] at h
              subst h
              exact ⟨fun _ _ => ⟨rfl, fun _ => ⟨hfv, hbd, rfl⟩,
                  fun h0 => absurd h0 hf0⟩,
                fun hp => absurd hp hpz, fun hl => absurd hl hle⟩
            next => exact absurd h (by simp)
          next => exact absurd h (by simp)
  · exact absurd h (by simp)

/-- Witness for C2: a `__TEXT` segment of a four-byte file is reserved
and copied. -/
theorem c2_segment_loading_witness :
    processCommand ⟨fun _ => [], fun _ _ => none⟩ 4096 [1, 2, 3, 4] initLoadState
        (.segment (str "__TEXT") 4096 8192 0 4 []) =
      .ok ⟨[], none, none, [], [], [], [(4096, 8192)], [(4096, [1, 2, 3, 4])]⟩ ∧
    (⟨[], none, none, [], [], [], [(4096, 8192)],
        [(4096, [1, 2, 3, 4])]⟩ : LoadState).reserves =
      initLoadState.reserves ++ [(4096, 8192)] := by
  have h := c2_segment_loading ⟨fun _ => [], fun _ _ => none⟩ 4096 [1, 2, 3, 4]
    initLoadState (str "__TEXT") 4096 8192 0 4 []
    ⟨[], none, none, [], [], [], [(4096, 8192)], [(4096, [1, 2, 3, 4])]⟩ rfl
  exact ⟨rfl, (h.1 (by decide) (by decide)).1⟩

/-! ## Mach-O loader: format failures (C6) -/

theorem exceptBind_ok {ε α β : Type} (a : α) (f : α → Except ε β) :
    (Except.ok a : Except ε α) >>= f = f a := rfl

theorem exceptBind_error {ε α β : Type} (e : ε) (f : α → Except ε β) :
    (Except.error e : Except ε α) >>= f = .error e := rfl

/-- C6: `load_from_bytes` fails with its short static message for each
format failure: an unparseable file, an archive or symbol-definition
file kind, a non-ARM CPU type, a big-endian file, a 64-bit file, and an
`EncryptionInfo` command with nonzero id reached after the preceding
commands processed successfully (the encrypted-executable message). -/
theorem c6_format_failures (oracle : LoaderOracle) (nps : Nat) (bytes : List Nat) :
    loadFromBytes oracle nps bytes none =
      .error (.err (str "Could not parse Mach-O file")) ∧
    loadFromBytes oracle nps bytes (some .arFile) =
      .error (.err (str "Unexpected Mach-O file kind: not an executable")) ∧
    loadFromBytes oracle nps bytes (some .symDef) =
      .error (.err (str "Unexpected Mach-O file kind: not an executable")) ∧
    (∀ header cmds, header.cputype ≠ CPU_TYPE_ARM →
      loadFromBytes oracle nps bytes (some (.machFile header cmds)) =
        .error (.err (str "Executable is not for an ARM CPU!"))) ∧
    (∀ header cmds, header.cputype = CPU_TYPE_ARM → header.isBigend = true →
      loadFromBytes oracle nps bytes (some (.machFile header cmds)) =
        .error (.err (str "Executable is not little-endian!"))) ∧
    (∀ header cmds, header.cputype = CPU_TYPE_ARM → header.isBigend = false →
      header.is64bit = true →
      loadFromBytes oracle nps bytes (some (.machFile header cmds)) =
        .error (.err (str "Executable is not 32-bit!"))) ∧
    (∀ header cs1 cryptId cs2 st, header.cputype = CPU_TYPE_ARM →
      header.isBigend = false → header.is64bit = false → cryptId ≠ 0 →
      cs1.foldlM (processCommand oracle nps bytes) initLoadState = .ok st →
      loadFromBytes oracle nps bytes
          (some (.machFile header (cs1 ++ .encryptionInfo cryptId :: cs2))) =
        .error (.err msgEncrypted)) := by
  refine ⟨rfl, rfl, rfl, ?_, ?_, ?_, ?_⟩
  · intro header cmds hcpu
    simp only [loadFromBytes, if_pos hcpu]
  · intro header cmds hcpu hbe
    simp only [loadFromBytes]
    rw [if_neg (not_not_intro hcpu), if_pos hbe]
  · intro header cmds hcpu hbe h64
    simp only [loadFromBytes]
    rw [if_neg (not_not_intro hcpu), if_neg (by simp [hbe]), if_pos h64]
  · intro header cs1 cryptId cs2 st hcpu hbe h64 hcrypt hfold
    simp only [loadFromBytes]
    rw [if_neg (not_not_intro hcpu), if_neg (by simp [hbe]),
      if_neg (by simp [h64]), List.foldlM_append, hfold, exceptBind_ok,
      List.foldlM_cons]
    have hstep : processCommand oracle nps bytes st (.encryptionInfo cryptId) =
        .error (.err msgEncrypted) := by
      simp only [processCommand, if_pos hcrypt]
    rw [hstep, exceptBind_error]

/-- Witness for C6, exercising the encrypted-executable branch with a
single `EncryptionInfo` command of id 1. -/
theorem c6_format_failures_witness :
    loadFromBytes ⟨fun _ => [], fun _ _ => none⟩ 4096 []
        (some (.machFile ⟨12, false, false⟩ [.encryptionInfo 1])) =
      .error (.err msgEncrypted) :=
  (c6_format_failures ⟨fun _ => [], fun _ _ => none⟩ 4096 []).2.2.2.2.2.2
    ⟨12, false, false⟩ [] 1 [] initLoadState rfl rfl rfl (by decide) rfl

/-! ## Mach-O loader: section post-processing (C3) -/

theorem dyldEntrySize_none_iff (name : Str) :
    dyldEntrySize name = none ↔
      ¬(name = str "__symbol_stub4" ∨ name = str "__nl_symbol_ptr" ∨
        name = str "__la_symbol_ptr") := by
  by_cases h1 : name = str "__symbol_stub4"
  · rw [dyldEntrySize, if_pos h1]; simp [h1]
  · by_cases h2 : name = str "__nl_symbol_ptr" ∨ name = str "__la_symbol_ptr"
    · rw [dyldEntrySize, if_neg h1, if_pos h2]; simp [h1, h2]
    · rw [dyldEntrySize, if_neg h1, if_neg h2]
      simp only [true_iff]
      push_neg at h2 ⊢
      exact ⟨h1, h2.1, h2.2⟩

theorem dyldEntrySize_some_spec (name : Str) (es : Nat)
    (h : dyldEntrySize name = some es) :
    (name = str "__symbol_stub4" ∨ name = str "__nl_symbol_ptr" ∨
      name = str "__la_symbol_ptr") ∧
    es = (if name = str "__symbol_stub4" then 12 else 4) := by
  by_cases h1 : name = str "__symbol_stub4"
  · rw [dyldEntrySize, if_pos h1] at h
    simp only [Option.some.injEq] at h
    exact ⟨Or.inl h1, by rw [if_pos h1, ← h]⟩
  · by_cases h2 : name = str "__nl_symbol_ptr" ∨ name = str "__la_symbol_ptr"
    · rw [dyldEntrySize, if_neg h1, if_pos h2] at h
      simp only [Option.some.injEq] at h
      exact ⟨Or.inr h2, by rw [if_neg h1, ← h]⟩
    · rw [dyldEntrySize, if_neg h1, if_neg h2] at h
      exact absurd h (by simp)

/-- The canonical shape of a successful `processSectionDesc` call. -/
theorem processSectionDesc_shape (g0 : List (Option Str)) (sd : SectionDesc)
    (sec : MachSection) (g1 : List (Option Str))
    (h : processSectionDesc g0 sd = .ok (sec, g1)) :
    sec.name = sd.sectname ∧ sec.addr = sd.addr ∧ sec.size = sd.size ∧
    ((dyldEntrySize sd.sectname = none ∧
        sec.dyld_indirect_symbol_info = none ∧ g1 = g0) ∨
      (∃ es, dyldEntrySize sd.sectname = some es ∧ sd.size % es = 0 ∧
        sd.reserved1 + sd.size / es ≤ g0.length ∧
        sec.dyld_indirect_symbol_info =
          some ⟨es, (g0.drop sd.reserved1).take (sd.size / es)⟩ ∧
        g1 = g0.take sd.reserved1 ++ List.replicate (sd.size / es) none ++
          g0.drop (sd.reserved1 + sd.size / es))) := by
  simp only [processSectionDesc] at h
  split at h
  · split at h
    next hdn =>
      simp only [Except.ok.injEq, Prod.mk.injEq] at h
      obtain ⟨hsec, hg⟩ := h
      subst hsec
      exact ⟨rfl, rfl, rfl, Or.inl ⟨hdn, rfl, hg.symm⟩⟩
    next es hdes =>
      split at h
      next hmod =>
        split at h
        next hlen =>
          simp only [Except.ok.injEq, Prod.mk.injEq] at h
          obtain ⟨hsec, hg⟩ := h
          subst hsec
          exact ⟨rfl, rfl, rfl, Or.inr ⟨es, hdes, hmod, hlen, rfl, hg.symm⟩⟩
        next => exact absurd h (by simp)
      next => exact absurd h (by simp)
  · exact absurd h (by simp)

/-- Per-section facts extractable from one successful
`processSectionDesc` call, independent of the threaded sequence. -/
theorem processSectionDesc_props (g0 : List (Option Str)) (sd : SectionDesc)
    (sec : MachSection) (g1 : List (Option Str))
    (h : processSectionDesc g0 sd = .ok (sec, g1)) :
    (sec.dyld_indirect_symbol_info.isSome = true ↔
      (sec.name = str "__symbol_stub4" ∨ sec.name = str "__nl_symbol_ptr" ∨
        sec.name = str "__la_symbol_ptr")) ∧
    ∀ ii, sec.dyld_indirect_symbol_info = some ii →
      ii.entry_size = (if sec.name = str "__symbol_stub4" then 12 else 4) ∧
      sec.size % ii.entry_size = 0 ∧
      ii.indirect_undef_symbols.length = sec.size / ii.entry_size := by
  obtain ⟨hname, _, hsize, hcase⟩ := processSectionDesc_shape g0 sd sec g1 h
  rcases hcase with ⟨hdn, hinfo, _⟩ | ⟨es, hdes, hmod, hlen, hinfo, _⟩
  · rw [hinfo, hname]
    constructor
    · simp [(dyldEntrySize_none_iff sd.sectname).mp hdn]
    · intro ii hii
      exact absurd hii (by simp)
  · obtain ⟨hmem, hes⟩ := dyldEntrySize_some_spec sd.sectname es hdes
    constructor
    · rw [hinfo, hname]
      simp [hmem]
    · intro ii hii
      rw [hinfo] at hii
      simp only [Option.some.injEq] at hii
      subst hii
      refine ⟨by rw [hname, ← hes], by rw [hsize]; exact hmod, ?_⟩
      rw [hsize]
      show ((g0.drop sd.reserved1).take (sd.size / es)).length = sd.size / es
      rw [List.length_take, List.length_drop]
      omega

/-- C3: in the sections returned by the post-processing pass, a section
carries `dyld_indirect_symbol_info` exactly when its name is
`__symbol_stub4` (entry size 12), `__nl_symbol_ptr`, or
`__la_symbol_ptr` (entry size 4); every such section satisfies
`size % entry_size = 0` with an indirect-symbols sequence of length
`size / entry_size`, moved out of the global sequence starting at index
`reserved1`, the global sequence retaining `none` placeholders in the
moved-out range. -/
theorem c3_indirect_sections :
    (∀ g sds secs g2, postProcessSections g sds = .ok (secs, g2) →
      ∀ s ∈ secs,
        (s.dyld_indirect_symbol_info.isSome = true ↔
          (s.name = str "__symbol_stub4" ∨ s.name = str "__nl_symbol_ptr" ∨
            s.name = str "__la_symbol_ptr")) ∧
        ∀ ii, s.dyld_indirect_symbol_info = some ii →
          ii.entry_size = (if s.name = str "__symbol_stub4" then 12 else 4) ∧
          s.size % ii.entry_size = 0 ∧
          ii.indirect_undef_symbols.length = s.size / ii.entry_size) ∧
    (∀ g0 sd sec g1, processSectionDesc g0 sd = .ok (sec, g1) →
      ∀ ii, sec.dyld_indirect_symbol_info = some ii →
        ii.indirect_undef_symbols =
          (g0.drop sd.reserved1).take (sd.size / ii.entry_size) ∧
        sd.reserved1 + sd.size / ii.entry_size ≤ g0.length ∧
        g1 = g0.take sd.reserved1 ++
          List.replicate (sd.size / ii.entry_size) none ++
          g0.drop (sd.reserved1 + sd.size / ii.entry_size)) := by
  constructor
  · intro g sds
    induction sds generalizing g with
    | nil =>
      intro secs g2 h s hs
      simp only [postProcessSections, Except.ok.injEq, Prod.mk.injEq] at h
      rw [← h.1] at hs
      exact absurd hs (by simp)
    | cons sd rest ih =>
      intro secs g2 h s hs
      simp only [postProcessSections] at h
      cases hp : processSectionDesc g sd with
      | error e =>
        simp only [hp] at h
        exact absurd h (by simp)
      | ok res =>
        obtain ⟨sec, g1⟩ := res
        simp only [hp] at h
        cases hq : postProcessSections g1 rest with
        | error e =>
          simp only [hq] at h
          exact absurd h (by simp)
        | ok res2 =>
          obtain ⟨secs1, g3⟩ := res2
          simp only [hq, Except.ok.injEq, Prod.mk.injEq] at h
          rw [← h.1] at hs
          rcases List.mem_cons.mp hs with hh | ht
          · subst hh
            exact processSectionDesc_props g sd s g1 hp
          · exact ih g1 secs1 g3 hq s ht
  · intro g0 sd sec g1 h ii hii
    obtain ⟨_, _, hsize, hcase⟩ := processSectionDesc_shape g0 sd sec g1 h
    rcases hcase with ⟨_, hinfo, _⟩ | ⟨es, _, _, hlen, hinfo, hg1⟩
    · rw [hinfo] at hii
      exact absurd hii (by simp)
    · rw [hinfo] at hii
      simp only [Option.some.injEq] at hii
      subst hii
      exact ⟨rfl, hlen, hg1⟩

/-- Witness for C3: a `__nl_symbol_ptr` section of size 8 moves two
entries out of the global sequence, leaving placeholders. -/
theorem c3_indirect_sections_witness :
    ∀ ii, (⟨str "__nl_symbol_ptr", 4096, 8,
        some ⟨4, [some (str "_a"), some (str "_b")]⟩⟩ : MachSection).dyld_indirect_symbol_info =
        some ii →
      ii.indirect_undef_symbols =
        (([some (str "_a"), some (str "_b")] : List (Option Str)).drop 0).take (8 / ii.entry_size) ∧
      0 + 8 / ii.entry_size ≤ ([some (str "_a"), some (str "_b")] : List (Option Str)).length ∧
      ([none, none] : List (Option Str)) =
        ([some (str "_a"), some (str "_b")] : List (Option Str)).take 0 ++
          List.replicate (8 / ii.entry_size) none ++
          ([some (str "_a"), some (str "_b")] : List (Option Str)).drop (0 + 8 / ii.entry_size) :=
  c3_indirect_sections.2 [some (str "_a"), some (str "_b")]
    ⟨str "__nl_symbol_ptr", 4096, 8, 0⟩
    ⟨str "__nl_symbol_ptr", 4096, 8, some ⟨4, [some (str "_a"), some (str "_b")]⟩⟩
    [none, none] rfl

/-! ## Mach-O loader: chunk decoding (C5, C10) -/

theorem chunksN_eq_map (n k : Nat) (l : List Nat) :
    chunksN n k l = (List.range n).map (fun m => (l.drop (k * m)).take k) := by
  induction n generalizing l with
  | zero => rfl
  | succ n ih =>
    rw [chunksN, ih, List.range_succ_eq_map, List.map_cons, List.map_map]
    congr 1
    refine List.map_eq_map_iff.mpr fun a ha => ?_
    simp only [Function.comp_apply, Nat.succ_eq_add_one]
    rw [List.drop_drop]
    have e : k + k * a = k * (a + 1) := by ring
    rw [e]

theorem getD_subslice (bytes : List Nat) (off len sub j : Nat)
    (h : sub + j < len) (hj : j < 4) :
    ((((bytes.drop off).take len).drop sub).take 4).getD j 0 =
      bytes.getD (off + (sub + j)) 0 := by
  rw [List.getD_eq_getElem?_getD, List.getElem?_take, if_pos hj,
    List.getElem?_drop, List.getElem?_take, if_pos h, List.getElem?_drop,
    ← List.getD_eq_getElem?_getD]

theorem le4_slice (bytes : List Nat) (off len sub : Nat) (h4 : sub + 4 ≤ len) :
    le4 ((((bytes.drop off).take len).drop sub).take 4) = le4at bytes (off + sub) := by
  rw [le4, le4at,
    getD_subslice bytes off len sub 0 (by omega) (by omega),
    getD_subslice bytes off len sub 1 (by omega) (by omega),
    getD_subslice bytes off len sub 2 (by omega) (by omega),
    getD_subslice bytes off len sub 3 (by omega) (by omega)]
  have e0 : off + (sub + 0) = off + sub := by omega
  have e1 : off + (sub + 1) = off + sub + 1 := by omega
  have e2 : off + (sub + 2) = off + sub + 2 := by omega
  have e3 : off + (sub + 3) = off + sub + 3 := by omega
  rw [e0, e1, e2, e3]

theorem resolveIndirects_ok (oracle : LoaderOracle) (info : SymTabInfo)
    (cs : List (List Nat)) :
    resolveIndirects oracle (some info) cs =
      .ok (cs.map fun c =>
        match get_sym_by_idx oracle (le4 c) info with
        | some (.undefined (some n)) => some n
        | _ => none) := by
  induction cs with
  | nil => rfl
  | cons c rest ih => simp only [resolveIndirects, ih, List.map_cons]

theorem resolveExtRels_ok (oracle : LoaderOracle) (info : SymTabInfo)
    (cs : List (List Nat)) :
    resolveExtRels oracle (some info) cs =
      .ok (cs.filterMap fun c =>
        match get_sym_by_idx oracle (le4 (c.drop 4) &&& 0xffffff) info with
        | some (.undefined (some n)) => some (le4 (c.take 4), n)
        | _ => none) := by
  induction cs with
  | nil => rfl
  | cons c rest ih =>
    simp only [resolveExtRels, ih, List.filterMap_cons]
    cases hg : get_sym_by_idx oracle (le4 (c.drop 4) &&& 0xffffff) info with
    | none => simp only [hg]
    | some s =>
      cases s with
      | debug => simp only [hg]
      | defined nm v => simp only [hg]
      | undefined nm => cases nm <;> simp only [hg]
      | other => simp only [hg]

/-- The effect of a successful `DySymTab` command when symbol-table info
has been recorded: both tables are in bounds, and the indirect-symbol
and external-relocation sequences are extended by the decoded
entries. -/
theorem dySymTab_effects (oracle : LoaderOracle) (nps : Nat) (bytes : List Nat)
    (st : LoadState) (io ni eo nr : Nat) (st' : LoadState) (info : SymTabInfo)
    (hinfo : st.symTabInfo = some info)
    (h : processCommand oracle nps bytes st (.dySymTab io ni eo nr) = .ok st') :
    io + ni * 4 ≤ bytes.length ∧ eo + nr * 8 ≤ bytes.length ∧
    st'.indirectUndefSymbols = st.indirectUndefSymbols ++
      (List.range ni).map (fun k =>
        match get_sym_by_idx oracle (le4at bytes (io + 4 * k)) info with
        | some (.undefined (some n)) => some n
        | _ => none) ∧
    st'.extRelocs = st.extRelocs ++
      (List.range nr).filterMap (fun k =>
        match get_sym_by_idx oracle ((le4at bytes (eo + 8 * k + 4)) &&& 0xffffff) info with
        | some (.undefined (some n)) => some (le4at bytes (eo + 8 * k), n)
        | _ => none) := by
  simp only [processCommand, hinfo, resolveIndirects_ok, resolveExtRels_ok] at h
  split at h
  next hib =>
    split at h
    next heb =>
      simp only [Except.ok.injEq] at h
      subst h
      refine ⟨hib, heb, ?_, ?_⟩
      · show st.indirectUndefSymbols ++ _ = st.indirectUndefSymbols ++ _
        congr 1
        rw [chunksN_eq_map, List.map_map]
        refine List.map_eq_map_iff.mpr fun k hk => ?_
        have hk' : k < ni := List.mem_range.mp hk
        simp only [Function.comp_apply]
        rw [le4_slice bytes io (ni * 4) (4 * k) (by omega)]
      · show st.extRelocs ++ _ = st.extRelocs ++ _
        congr 1
        rw [chunksN_eq_map, List.filterMap_map]
        refine List.filterMap_congr fun k hk => ?_
        have hk' : k < nr := List.mem_range.mp hk
        simp only [Function.comp_apply]
        rw [List.take_take, List.drop_take, List.drop_drop]
        have e4 : (4 : Nat) ⊓ 8 = 4 := rfl
        have e8 : (8 : Nat) - 4 = 4 := rfl
        rw [e4, e8,
          le4_slice bytes eo (nr * 8) (8 * k) (by omega),
          le4_slice bytes eo (nr * 8) (8 * k + 4) (by omega)]
        have e : eo + (8 * k + 4) = eo + 8 * k + 4 := by omega
        rw [e]
    next => exact absurd h (by simp)
  next => exact absurd h (by simp)

/-- C5: for every `k < nextrel`, the 8 bytes at `extreloff + 8*k` are
decoded as `addr` (little-endian bytes 0..4) and `sym_idx` (little-endian
bytes 4..8 masked with `0x00FF_FFFF`); `(addr, name)` is appended to the
external relocations exactly when `sym_idx` resolves to an `Undefined`
symbol carrying a name, other entries being skipped, and the appended
pairs preserve the file order of the relocation entries. -/
theorem c5_external_relocations (oracle : LoaderOracle) (nps : Nat)
    (bytes : List Nat) (st : LoadState) (io ni eo nr : Nat) (st' : LoadState)
    (info : SymTabInfo) (hinfo : st.symTabInfo = some info)
    (h : processCommand oracle nps bytes st (.dySymTab io ni eo nr) = .ok st') :
    st'.extRelocs = st.extRelocs ++
      (List.range nr).filterMap (fun k =>
        match get_sym_by_idx oracle ((le4at bytes (eo + 8 * k + 4)) &&& 0xffffff) info with
        | some (.undefined (some n)) => some (le4at bytes (eo + 8 * k), n)
        | _ => none) :=
  (dySymTab_effects oracle nps bytes st io ni eo nr st' info hinfo h).2.2.2

/-- Witness for C5: of two relocation entries, the one resolving to
`Undefined` with a name is appended, the other skipped. -/
theorem c5_external_relocations_witness :
    (⟨[], some ⟨0, 6, 0, 0⟩, none, [], [], [(16, str "_malloc")], [], []⟩ : LoadState).extRelocs =
      (⟨[], some ⟨0, 6, 0, 0⟩, none, [], [], [], [], []⟩ : LoadState).extRelocs ++
        (List.range 2).filterMap (fun k =>
          match get_sym_by_idx ⟨fun _ => [], fun _ i =>
                if i = 2 then some (.undefined (some (str "_malloc"))) else some .other⟩
              ((le4at [16, 0, 0, 0, 2, 0, 0, 0, 32, 0, 0, 0, 5, 0, 0, 0] (0 + 8 * k + 4)) &&& 0xffffff)
              ⟨0, 6, 0, 0⟩ with
          | some (.undefined (some n)) =>
            some (le4at [16, 0, 0, 0, 2, 0, 0, 0, 32, 0, 0, 0, 5, 0, 0, 0] (0 + 8 * k), n)
          | _ => none) :=
  c5_external_relocations ⟨fun _ => [], fun _ i =>
      if i = 2 then some (.undefined (some (str "_malloc"))) else some .other⟩
    0 [16, 0, 0, 0, 2, 0, 0, 0, 32, 0, 0, 0, 5, 0, 0, 0]
    ⟨[], some ⟨0, 6, 0, 0⟩, none, [], [], [], [], []⟩ 0 0 0 2
    ⟨[], some ⟨0, 6, 0, 0⟩, none, [], [], [(16, str "_malloc")], [], []⟩
    ⟨0, 6, 0, 0⟩ rfl rfl

/-- C10: an indirect-symbol-table index at or past `nsyms` (including
the `0x80000000` absolute and `0x40000000` local markers) makes
`get_sym_by_idx` totally return no symbol, and the indirect-symbol loop
of a successful `DySymTab` command records an absent entry for that
slot of the indirect-undef-symbols sequence. -/
theorem c10_out_of_range_indirects (oracle : LoaderOracle) (idx : Nat)
    (info : SymTabInfo) (h : info.nsyms ≤ idx) :
    get_sym_by_idx oracle idx info = none ∧
    ∀ nps bytes st io ni eo nr st' k, st.symTabInfo = some info →
      processCommand oracle nps bytes st (.dySymTab io ni eo nr) = .ok st' →
      k < ni → le4at bytes (io + 4 * k) = idx →
      st'.indirectUndefSymbols[st.indirectUndefSymbols.length + k]? = some none := by
  have h1 : get_sym_by_idx oracle idx info = none := by
    rw [get_sym_by_idx, if_pos h]
  refine ⟨h1, ?_⟩
  intro nps bytes st io ni eo nr st' k hinfo hpc hk hidx
  obtain ⟨_, _, hind, _⟩ :=
    dySymTab_effects oracle nps bytes st io ni eo nr st' info hinfo hpc
  rw [hind, List.getElem?_append_right (by omega), Nat.add_sub_cancel_left,
    List.getElem?_map, List.getElem?_range hk]
  simp only [hidx, h1, Option.map_some']

/-- Witness for C10: index `0x80000000` with one symbol yields no
symbol even though the oracle could parse one, and the slot records an
absent entry. -/
theorem c10_out_of_range_indirects_witness :
    get_sym_by_idx ⟨fun _ => [], fun _ _ => some (.undefined (some (str "_x")))⟩
        0x80000000 ⟨0, 1, 0, 0⟩ = none ∧
    (⟨[], some ⟨0, 1, 0, 0⟩, none, [], [none], [], [], []⟩ : LoadState).indirectUndefSymbols[
      (⟨[], some ⟨0, 1, 0, 0⟩, none, [], [], [], [], []⟩ : LoadState).indirectUndefSymbols.length + 0]? =
      some none := by
  have h := c10_out_of_range_indirects
    ⟨fun _ => [], fun _ _ => some (.undefined (some (str "_x")))⟩
    0x80000000 ⟨0, 1, 0, 0⟩ (by decide)
  exact ⟨h.1, h.2 0 [0, 0, 0, 128]
    ⟨[], some ⟨0, 1, 0, 0⟩, none, [], [], [], [], []⟩ 0 1 0 0
    ⟨[], some ⟨0, 1, 0, 0⟩, none, [], [none], [], [], []⟩ 0 rfl rfl
    (by decide) (by decide)⟩

/-! ## Mach-O loader: entry point (C4) -/

theorem updateEntryPoint_cons_defined (acc : Option Nat) (n : Str) (v : Nat)
    (rest : List MachSymbol) :
    updateEntryPoint acc (.defined (some n) v :: rest) =
      if n = str "start" then
        (if v < 2 ^ 32 then updateEntryPoint (some v) rest else .error .fatal)
      else updateEntryPoint acc rest := rfl

theorem updateEntryPoint_cons_no_start (acc : Option Nat) (s : MachSymbol)
    (rest : List MachSymbol) (hs : isStartSym s = false) :
    updateEntryPoint acc (s :: rest) = updateEntryPoint acc rest := by
  cases s with
  | defined nm v =>
    cases nm with
    | none => rfl
    | some n =>
      simp only [isStartSym, beq_eq_false_iff_ne, ne_eq] at hs
      rw [updateEntryPoint_cons_defined, if_neg hs]
  | debug => rfl
  | undefined nm => rfl
  | other => rfl

theorem updateEntryPoint_no_start (syms : List MachSymbol) (acc : Option Nat)
    (h : ∀ s ∈ syms, isStartSym s = false) :
    updateEntryPoint acc syms = .ok acc := by
  induction syms with
  | nil => rfl
  | cons s rest ih =>
    rw [updateEntryPoint_cons_no_start acc s rest (h s (List.mem_cons_self s rest))]
    exact ih fun x hx => h x (List.mem_cons_of_mem s hx)

theorem updateEntryPoint_unique_start (pre post : List MachSymbol) (v : Nat)
    (acc : Option Nat) (hv : v < 2 ^ 32)
    (hpre : ∀ s ∈ pre, isStartSym s = false)
    (hpost : ∀ s ∈ post, isStartSym s = false) :
    updateEntryPoint acc (pre ++ .defined (some (str "start")) v :: post) =
      .ok (some v) := by
  induction pre generalizing acc with
  | nil =>
    rw [List.nil_append, updateEntryPoint_cons_defined, if_pos rfl, if_pos hv]
    exact updateEntryPoint_no_start post (some v) hpost
  | cons s pre ih =>
    rw [List.cons_append,
      updateEntryPoint_cons_no_start acc s _ (hpre s (List.mem_cons_self s pre))]
    exact ih acc fun x hx => hpre x (List.mem_cons_of_mem s hx)

/-- A command other than `SymTab` leaves the entry point unchanged. -/
theorem processCommand_entry_eq (oracle : LoaderOracle) (nps : Nat)
    (bytes : List Nat) (st : LoadState) (cmd : MachLoadCommand) (st' : LoadState)
    (h : processCommand oracle nps bytes st cmd = .ok st')
    (hns : isSymTabCmd cmd = false) : st'.entryPoint = st.entryPoint := by
  cases cmd with
  | symTab a b c d => simp [isSymTabCmd] at hns
  | segment a b c d e f =>
    simp only [processCommand] at h
    repeat' split at h
    all_goals first
      | (simp only [Except.ok.injEq] at h; subst h; rfl)
      | simp at h
  | dySymTab a b c d =>
    simp only [processCommand] at h
    repeat' split at h
    all_goals first
      | (simp only [Except.ok.injEq] at h; subst h; rfl)
      | simp at h
  | encryptionInfo a =>
    simp only [processCommand] at h
    repeat' split at h
    all_goals first
      | (simp only [Except.ok.injEq] at h; subst h; rfl)
      | simp at h
  | loadDyLib n =>
    simp only [processCommand, Except.ok.injEq] at h
    subst h; rfl
  | dyldInfo =>
    simp only [processCommand, Except.ok.injEq] at h
    subst h; rfl
  | otherCommand =>
    simp only [processCommand, Except.ok.injEq] at h
    subst h; rfl

/-- A fold over `SymTab`-free commands leaves the entry point
unchanged. -/
theorem foldlM_entry_eq (oracle : LoaderOracle) (nps : Nat) (bytes : List Nat) :
    ∀ (cs : List MachLoadCommand) (st0 st1 : LoadState),
      (∀ c ∈ cs, isSymTabCmd c = false) →
      cs.foldlM (processCommand oracle nps bytes) st0 = .ok st1 →
      st1.entryPoint = st0.entryPoint := by
  intro cs
  induction cs with
  | nil =>
    intro st0 st1 _ h
    have h2 : (Except.ok st0 : Except LoadFailure LoadState) = .ok st1 := h
    simp only [Except.ok.injEq] at h2
    rw [← h2]
  | cons c rest ih =>
    intro st0 st1 hns h
    rw [List.foldlM_cons] at h
    cases hc : processCommand oracle nps bytes st0 c with
    | error e =>
      rw [hc, exceptBind_error] at h
      exact absurd h (by simp)
    | ok stm =>
      rw [hc, exceptBind_ok] at h
      rw [ih stm st1 (fun x hx => hns x (List.mem_cons_of_mem c hx)) h]
      exact processCommand_entry_eq oracle nps bytes st0 c stm hc
        (hns c (List.mem_cons_self c rest))

/-- The `SymTab` arm walks the symbols from the current entry point. -/
theorem processCommand_symTab (oracle : LoaderOracle) (nps : Nat)
    (bytes : List Nat) (st : LoadState) (symoff nsyms stroff strsize : Nat)
    (st' : LoadState)
    (h : processCommand oracle nps bytes st
      (.symTab symoff nsyms stroff strsize) = .ok st') :
    ∃ ep, updateEntryPoint st.entryPoint
        (oracle.parseSymbolsAll ⟨symoff, nsyms, stroff, strsize⟩) = .ok ep ∧
      st'.entryPoint = ep := by
  simp only [processCommand] at h
  cases hu : updateEntryPoint st.entryPoint
      (oracle.parseSymbolsAll ⟨symoff, nsyms, stroff, strsize⟩) with
  | error e =>
    simp only [hu] at h
    exact absurd h (by simp)
  | ok ep =>
    simp only [hu, Except.ok.injEq] at h
    subst h
    exact ⟨ep, rfl, rfl⟩

/-- C4: for a command list with a single symbol table, `load_from_bytes`
returns `entry_point_addr` equal to the value of the non-debug `Defined`
symbol named exactly `start`, and returns it absent when no such symbol
exists. -/
theorem c4_entry_point (oracle : LoaderOracle) (nps : Nat) (bytes : List Nat)
    (header : MachHeader) (cs1 cs2 : List MachLoadCommand)
    (symoff nsyms stroff strsize : Nat) (m : MachO) (tr : LoadState)
    (h1 : ∀ c ∈ cs1, isSymTabCmd c = false)
    (h2 : ∀ c ∈ cs2, isSymTabCmd c = false)
    (h : loadFromBytes oracle nps bytes (some (.machFile header
      (cs1 ++ .symTab symoff nsyms stroff strsize :: cs2))) = .ok (m, tr)) :
    ((∀ s ∈ oracle.parseSymbolsAll ⟨symoff, nsyms, stroff, strsize⟩,
        isStartSym s = false) → m.entry_point_addr = none) ∧
    (∀ pre v post,
      oracle.parseSymbolsAll ⟨symoff, nsyms, stroff, strsize⟩ =
        pre ++ .defined (some (str "start")) v :: post →
      (∀ s ∈ pre, isStartSym s = false) →
      (∀ s ∈ post, isStartSym s = false) →
      v < 2 ^ 32 → m.entry_point_addr = some v) := by
  simp only [loadFromBytes] at h
  split at h
  · exact absurd h (by simp)
  · split at h
    · exact absurd h (by simp)
    · split at h
      · exact absurd h (by simp)
      · cases hf : (cs1 ++ MachLoadCommand.symTab symoff nsyms stroff strsize :: cs2).foldlM
            (processCommand oracle nps bytes) initLoadState with
        | error e =>
          simp only [hf] at h
          exact absurd h (by simp)
        | ok st =>
          simp only [hf] at h
          cases hp : postProcessSections st.indirectUndefSymbols st.allSections with
          | error e =>
            simp only [hp] at h
            exact absurd h (by simp)
          | ok res =>
            obtain ⟨secs, g⟩ := res
            simp only [hp, Except.ok.injEq, Prod.mk.injEq] at h
            obtain ⟨hm, htr⟩ := h
            have hme : m.entry_point_addr = st.entryPoint := by rw [← hm]
            rw [List.foldlM_append] at hf
            cases hf1 : cs1.foldlM (processCommand oracle nps bytes) initLoadState with
            | error e =>
              rw [hf1, exceptBind_error] at hf
              exact absurd hf (by simp)
            | ok st1 =>
              rw [hf1, exceptBind_ok, List.foldlM_cons] at hf
              cases hc : processCommand oracle nps bytes st1
                  (.symTab symoff nsyms stroff strsize) with
              | error e =>
                rw [hc, exceptBind_error] at hf
                exact absurd hf (by simp)
              | ok st2 =>
                rw [hc, exceptBind_ok] at hf
                have hst1 : st1.entryPoint = none :=
                  foldlM_entry_eq oracle nps bytes cs1 initLoadState st1 h1 hf1
                obtain ⟨ep, hu, hep⟩ := processCommand_symTab oracle nps bytes st1
                  symoff nsyms stroff strsize st2 hc
                have hst : st.entryPoint = st2.entryPoint :=
                  foldlM_entry_eq oracle nps bytes cs2 st2 st h2 hf
                rw [hst1] at hu
                constructor
                · intro hns
                  have hn := updateEntryPoint_no_start
                    (oracle.parseSymbolsAll ⟨symoff, nsyms, stroff, strsize⟩) none hns
                  rw [hu] at hn
                  rw [hme, hst, hep, Except.ok.inj hn]
                · intro pre v post hdec hpre hpost hv
                  have hn := updateEntryPoint_unique_start pre post v none hv hpre hpost
                  rw [← hdec, hu] at hn
                  rw [hme, hst, hep, Except.ok.inj hn]

/-- Witness for C4: a symbol table holding a `Defined` symbol named
`start` with value 4096 yields that entry point. -/
theorem c4_entry_point_witness :
    (⟨some 4096, [str "lib"], [], []⟩ : MachO).entry_point_addr = some 4096 :=
  (c4_entry_point
      ⟨fun _ => [.debug, .defined (some (str "start")) 4096, .undefined none],
        fun _ _ => none⟩
      4096 [] ⟨12, false, false⟩ [.otherCommand] [.loadDyLib (str "lib")]
      0 3 0 0 ⟨some 4096, [str "lib"], [], []⟩
      ⟨[], some ⟨0, 3, 0, 0⟩, some 4096, [str "lib"], [], [], [], []⟩
      (by decide) (by decide) rfl).2
    [.debug] 4096 [.undefined none] rfl (by decide) (by decide) (by decide)
